import Mathlib

/-!
Verification of the deepstream.io storage-connector core: the key segmenter
(`_getSegments`), the query synthesizer (`_getQuery`), the bidirectional
value transform (`transform-data`), and the connector operation dispatch
(`set`/`get`/`delete`, constructor option checks).

JavaScript values are modelled by the inductive `JSValue` (numbers as
integers, which covers every value the connector handles; ASCII-faithful
`toUpperCase`).  JavaScript objects are key/value sequences in insertion
order, as in the V8 semantics for string keys.  Exceptions are modelled with
`Except JSError`.  A second, heap-based embedding at the end of the
definition section models object identity and in-place mutation explicitly,
for the frame/aliasing properties of the transform functions.
-/

set_option maxHeartbeats 1000000

set_option maxRecDepth 100000

mutual

inductive JSValue where
  | undefined : JSValue
  | null : JSValue
  | bool (b : Bool) : JSValue
  | num (n : Int) : JSValue
  | str (s : String) : JSValue
  | arr (elems : JSList) : JSValue
  | obj (fields : JSFields) : JSValue

inductive JSList where
  | nil : JSList
  | cons (head : JSValue) (tail : JSList) : JSList

inductive JSFields where
  | nil : JSFields
  | cons (key : String) (val : JSValue) (tail : JSFields) : JSFields

end

deriving instance DecidableEq for JSValue, JSList, JSFields

/-- Exceptions thrown by the JavaScript code under scrutiny. -/
inductive JSError where
  /-- strict-mode `TypeError` (property access/assignment on a non-object). -/
  | typeError : JSError
  /-- `SyntaxError` from `JSON.parse` (e.g. `JSON.parse(undefined)`). -/
  | syntaxError : JSError
  /-- stands for `JSON.stringify` failing on a circular structure (or the
  recursion budget of the heap model running out). -/
  | circular : JSError

deriving instance DecidableEq for JSError

deriving instance DecidableEq for Except

/-- Conversion of the field representation to a Lean association list. -/
def JSFields.toList : JSFields → List (String × JSValue)
  | .nil => []
  | .cons k v t => (k, v) :: t.toList

/-- Conversion of a Lean association list to the field representation. -/
def JSFields.ofList : List (String × JSValue) → JSFields
  | [] => .nil
  | (k, v) :: t => .cons k v (JSFields.ofList t)

/-- JavaScript property read on an object: the value at the key, or
`undefined` when the key is absent. -/
def JSFields.lookup : JSFields → String → JSValue
  | .nil, _ => .undefined
  | .cons k v t, key => if k = key then v else t.lookup key

/-- JavaScript property assignment on an object: an existing key keeps its
position and gets the new value; a new key is appended (insertion order). -/
def JSFields.setKey : JSFields → String → JSValue → JSFields
  | .nil, key, x => .cons key x .nil
  | .cons k v t, key, x => if k = key then .cons key x t else .cons k v (t.setKey key x)

/-- JavaScript `delete` on an object: the key (unique in any real JS object)
is removed, other fields keep their order. -/
def JSFields.delKey : JSFields → String → JSFields
  | .nil, _ => .nil
  | .cons k v t, key => if k = key then t.delKey key else .cons k v (t.delKey key)

/-- JavaScript truthiness. -/
def truthy : JSValue → Bool
  | .undefined => false
  | .null => false
  | .bool b => b
  | .num n => n ≠ 0
  | .str s => s ≠ ""
  | .arr _ => true
  | .obj _ => true

/-- The `value instanceof Array` test. -/
def isArrayV : JSValue → Bool
  | .arr _ => true
  | _ => false

/-- Total property read, used where the base is known to be an object or at
least truthy (a primitive base auto-boxes and yields `undefined`). -/
def fieldOf : JSValue → String → JSValue
  | .obj fs, k => fs.lookup k
  | _, _ => .undefined

/-- Property read that models the strict-mode exception: reading a property
of `undefined` or `null` throws a `TypeError`; any other base yields the
property value (objects) or `undefined` (primitives, arrays with a
non-index key). -/
def propGet : JSValue → String → Except JSError JSValue
  | .undefined, _ => .error .typeError
  | .null, _ => .error .typeError
  | v, k => .ok (fieldOf v k)

/-- Property assignment.  Assigning to a property of `undefined`, `null` or
(in strict mode) a primitive throws a `TypeError`.  Expando properties on
arrays are not representable here and are mapped to `TypeError` as well;
no code path exercised by the claims assigns a property to an array. -/
def propSet : JSValue → String → JSValue → Except JSError JSValue
  | .obj fs, k, x => .ok (.obj (fs.setKey k x))
  | _, _, _ => .error .typeError

/-- JavaScript `delete value.k`: removes the key from an object; a no-op on
any primitive base reachable in the code under scrutiny. -/
def deleteField : JSValue → String → JSValue
  | .obj fs, k => .obj (fs.delKey k)
  | v, _ => v

mutual

/-- Does the value contain `undefined` anywhere (as itself, an array element
or a field value)?  `JSON.parse(JSON.stringify v)` is the identity exactly
on the `undefined`-free values. -/
def noUndefined : JSValue → Bool
  | .undefined => false
  | .arr xs => noUndefinedList xs
  | .obj fs => noUndefinedFields fs
  | _ => true

def noUndefinedList : JSList → Bool
  | .nil => true
  | .cons h t => noUndefined h && noUndefinedList t

def noUndefinedFields : JSFields → Bool
  | .nil => true
  | .cons _ v t => noUndefined v && noUndefinedFields t

end

mutual

/-- Effect of `JSON.parse(JSON.stringify ·)` below the top level:
object fields holding `undefined` are dropped, array elements holding
`undefined` become `null`. -/
def stripUndefined : JSValue → JSValue
  | .arr xs => .arr (stripList xs)
  | .obj fs => .obj (stripFields fs)
  | v => v

def stripList : JSList → JSList
  | .nil => .nil
  | .cons .undefined t => .cons .null (stripList t)
  | .cons h t => .cons (stripUndefined h) (stripList t)

def stripFields : JSFields → JSFields
  | .nil => .nil
  | .cons k v t => if v = .undefined then stripFields t else .cons k (stripUndefined v) (stripFields t)

end

/-- `JSON.parse(JSON.stringify value)`: `JSON.stringify undefined` evaluates
to `undefined`, so the subsequent `JSON.parse` throws a `SyntaxError`; on
any other input the deep copy succeeds, dropping `undefined`-valued object
fields and turning `undefined` array elements into `null`. -/
def jsonRoundTrip : JSValue → Except JSError JSValue
  | .undefined => .error .syntaxError
  | v => .ok (stripUndefined v)

/-- Scalar (non-container, non-`undefined`) values: the property payloads
the spec's data model allows. -/
def isScalar : JSValue → Bool
  | .null => true
  | .bool _ => true
  | .num _ => true
  | .str _ => true
  | _ => false

/-- Byte-wise (code-point-wise) lexicographic comparison of character
lists; used to give object fields a canonical order for deep equality. -/
def charsLE : List Char → List Char → Bool
  | [], _ => true
  | _ :: _, [] => false
  | a :: as, b :: bs => if a = b then charsLE as bs else decide (a < b)

/-- Lexicographic comparison of strings via their character lists. -/
def strLE (a b : String) : Bool := charsLE a.data b.data

/-- Order on association-list entries by key. -/
def keyLE (a b : String × JSValue) : Prop := strLE a.1 b.1 = true

instance : DecidableRel keyLE := fun a b => inferInstanceAs (Decidable (strLE a.1 b.1 = true))

/-- Canonical key order for object fields under deep equality. -/
def sortFields (l : List (String × JSValue)) : List (String × JSValue) :=
  List.insertionSort keyLE l

mutual

/-- Canonical form of a value: object fields are recursively normalised and
sorted by key.  Two values are deeply equal (in the sense of the JS test
suite's `deep.equal`, which ignores key insertion order but distinguishes a
key holding `undefined` from an absent key) iff their canonical forms
coincide. -/
def normv : JSValue → JSValue
  | .undefined => .undefined
  | .null => .null
  | .bool b => .bool b
  | .num n => .num n
  | .str s => .str s
  | .arr xs => .arr (normList xs)
  | .obj fs => .obj (JSFields.ofList (sortFields (normFields fs).toList))

def normList : JSList → JSList
  | .nil => .nil
  | .cons h t => .cons (normv h) (normList t)

def normFields : JSFields → JSFields
  | .nil => .nil
  | .cons k v t => .cons k (normv v) (normFields t)

end

/-- JavaScript deep equality of values (order-insensitive on object keys). -/
def deepEqual (a b : JSValue) : Bool := normv a == normv b

/-- Translation of `transformValueForStorage` (src/transform-data.js): deep
copy via JSON; pull `_d` out; a list payload becomes `{__dsList, __ds}`, an
object payload is split into `{_props, _rels, __ds}` (note: the `_rels` key
is present in the result even when the payload had none, then holding
`undefined`). -/
def transformValueForStorage (value : JSValue) : Except JSError JSValue := do
  let value ← jsonRoundTrip value
  let data ← propGet value "_d"
  let value := deleteField value "_d"
  if isArrayV data then
    pure (.obj (.cons "__dsList" data (.cons "__ds" value .nil)))
  else do
    let rels ← propGet data "_rels"
    let data := deleteField data "_rels"
    pure (.obj (.cons "_props" data (.cons "_rels" rels (.cons "__ds" value .nil))))

/-- Translation of `transformValueFromStorage` (src/transform-data.js): deep
copy via JSON (which throws on an `undefined` argument before the falsy
guard is reached); falsy input yields `undefined`; a `__dsList` payload is
reattached as `_d`; otherwise `_d` is rebuilt from `_props` and, when
`_props` is truthy, `_rels` is written through the alias `data._d`
(modelled by re-setting the `_d` field to the updated object). -/
def transformValueFromStorage (value : JSValue) : Except JSError JSValue := do
  let value ← jsonRoundTrip value
  if truthy value = false then
    pure .undefined
  else
    let data := fieldOf value "__ds"
    let value := deleteField value "__ds"
    if isArrayV (fieldOf value "__dsList") then
      propSet data "_d" (fieldOf value "__dsList")
    else do
      let props := fieldOf value "_props"
      let data ← propSet data "_d" props
      if truthy props then do
        let withRels ← propSet props "_rels" (fieldOf value "_rels")
        let data ← propSet data "_d" withRels
        let _ := deleteField value "_rels"
        pure data
      else do
        let _ := deleteField value "_rels"
        pure data

/-- Composition checked by the round-trip law. -/
def roundTrip (v : JSValue) : Except JSError JSValue :=
  transformValueForStorage v >>= transformValueFromStorage

/-- Connector state after construction: the two configuration fields the
key segmenter and query synthesizer read (`this._defaultLabel`,
`this._splitChar`); `none` models the `null` that `options.splitChar ||
null` produces when the option is unset or empty. -/
structure Connector where
  defaultLabel : String
  splitChar : Option String

deriving instance DecidableEq for Connector

/-- Does the second list start with the first one? -/
def listStartsWith : List Char → List Char → Bool
  | [], _ => true
  | _ :: _, [] => false
  | a :: as, b :: bs => a = b && listStartsWith as bs

/-- Splitting engine for `String.prototype.split` with a non-empty string
separator: leftmost, non-overlapping occurrences; adjacent separators
produce empty elements.  The fuel argument (instantiated with the input
length, an upper bound on the number of steps) keeps the recursion
structural. -/
def splitAux (sep : List Char) : Nat → List Char → List Char → List (List Char)
  | _, [], acc => [acc.reverse]
  | 0, cs, acc => [acc.reverse ++ cs]
  | fuel + 1, c :: cs, acc =>
    if listStartsWith sep (c :: cs) then
      acc.reverse :: splitAux sep fuel (cs.drop (sep.length - 1)) []
    else
      splitAux sep fuel cs (c :: acc)

/-- JavaScript `key.split(sep)`.  When `sep` is `null` it is converted to
the string `"null"` by `String.prototype.split`; an empty-string separator
splits into single characters. -/
def jsSplit (sep : Option String) (key : String) : List String :=
  let sepStr := match sep with
    | none => "null"
    | some s => s
  if sepStr = "" then
    key.data.map Char.toString
  else
    (splitAux sepStr.data key.data.length key.data []).map String.mk

/-- JavaScript `s.toUpperCase()`, character by character (identical to the
JS behaviour on the ASCII range). -/
def jsToUpper (s : String) : String := String.mk (s.data.map Char.toUpper)

/-- The case-normalisation loop of `_getSegments`:
`segments[i] = (i % 2) ? segments[i] : segments[i].toUpperCase()`
(even index uppercased, odd index preserved), starting at index `i`. -/
def upperAlternate : Nat → List String → List String
  | _, [] => []
  | i, s :: rest => (if i % 2 = 0 then jsToUpper s else s) :: upperAlternate (i + 1) rest

/-- Translation of `Connector.prototype._getSegments` (part_003 lines
193-206): split on the configured separator; reject (`null`, modelled as
`none`) when the first element is empty or equals the default label;
uppercase even-indexed elements; rewrite a lone element to
`"{defaultLabel}:{element}"`. -/
def Connector.getSegments (c : Connector) (key : String) : Option (List String) :=
  let segments := jsSplit c.splitChar key
  if segments.head? = some "" ∨ segments.head? = some c.defaultLabel then
    none
  else
    let segments := upperAlternate 0 segments
    match segments with
    | [x] => some [c.defaultLabel ++ ":" ++ x]
    | _ => some segments

/-- Number of elements of a `JSList`. -/
def JSList.length : JSList → Nat
  | .nil => 0
  | .cons _ t => t.length + 1

/-- Numeric value of a decimal property key (digits read left to right). -/
def keyNum (s : String) : Nat := s.data.foldl (fun a c => a * 10 + (c.toNat - 48)) 0

/-- The "array index" property keys of ECMA-262: the canonical decimal
representation (no sign, no leading zeros) of an integer `0 ≤ n < 2^32 - 1`. -/
def isArrayIndex (s : String) : Bool :=
  match s.data with
  | [] => false
  | c :: cs =>
    (c :: cs).all Char.isDigit
      && (decide (c ≠ '0') || cs.isEmpty)
      && decide (keyNum s < 4294967295)

/-- Ascending numeric order on array-index property keys. -/
def idxLE (a b : String) : Prop := keyNum a ≤ keyNum b

instance : DecidableRel idxLE := fun a b => inferInstanceAs (Decidable (keyNum a ≤ keyNum b))

/-- Keys enumerated by `for (let rel in rels)`, per ECMA-262
EnumerateObjectProperties over OrdinaryOwnPropertyKeys: for an object, its
array-index keys in ascending numeric order followed by its remaining own
string keys in insertion order; for an array or a primitive string, the
index strings `"0"`, `"1"`, … (the `length` property is not enumerable);
nothing for any other value — `for...in` over `null` or `undefined` runs
zero iterations, and boxed numbers and booleans have no own enumerable
properties. -/
def forInKeys : JSValue → List String
  | .obj fs =>
    let ks := fs.toList.map Prod.fst
    List.insertionSort idxLE (ks.filter (fun k => isArrayIndex k))
      ++ ks.filter (fun k => !isArrayIndex k)
  | .arr xs => (List.range xs.length).map Nat.repr
  | .str s => (List.range s.length).map Nat.repr
  | _ => []

/-- The element read `segments[i]` as it behaves inside a template literal:
an out-of-bounds read yields `undefined`, which interpolates as the string
`"undefined"`. -/
def jsIndex (l : List String) (i : Nat) : String := (l.get? i).getD "undefined"

/-- Translation of `Connector.prototype._getQuery` (part_003 lines
208-249).  The query text is built by string concatenation; `$__ds`,
`$_props` and `$_rels.{rel}` are parameter references in the emitted text,
while the id segment, the label and each relation name are spliced into
the text itself.  Literal braces and quotes of the source templates are
written with `\x7b`, `\x7d` and `\x27`.  For segment lists of length ≥ 3
every branch is skipped and the empty string is returned. -/
def Connector.getQuery (_c : Connector) (action : String) (segments : List String)
    (values : JSValue) : String :=
  let label := jsIndex segments 0
  if segments.length < 3 then
    let id := jsIndex segments 1
    let query := (if action = "SET" then "MERGE" else "MATCH")
      ++ " (ds:__DS \x7b _key: \x27" ++ id ++ "\x27 \x7d)-[ds_r:__ds]->(n:" ++ label ++ ") "
    if truthy values then
      let query := query ++ " SET ds += $__ds " ++ " SET ds_r.schema = keys($_rels) "
        ++ " SET n += $_props "
      (forInKeys (fieldOf values "_rels")).foldl
        (fun acc rel =>
          let label := jsToUpper rel
          acc ++ "MERGE (n)-[:" ++ rel ++ "]->(" ++ label ++ "_m)<-[:__ds]-(" ++ label
            ++ "_ds)\n                  SET " ++ label ++ "_ds += $_rels." ++ rel ++ " ")
        query
    else
      let query := query ++ "MATCH (n)-[r]->(m) " ++ "WHERE type(r) IN ds_r.schema "
      if action = "DELETE" then
        query ++ "DETACH DELETE n, m"
      else
        query ++ "RETURN \x7b __ds: properties(ds),\n                            "
          ++ "_props: properties(n),\n                            "
          ++ "_rel_keys: collect(type(r)), \n                            "
          ++ "_rel_vals: collect(properties(m)) \x7d AS value"
  else
    ""

/-- What a public operation does before any asynchronous engine work: either
it invokes the caller's callback synchronously with an error string (no
query is built, no session is opened), or it submits a query string plus
bound parameters to the engine session. -/
inductive OpOutcome where
  | callbackError (err : String) : OpOutcome
  | engineCall (query : String) (params : JSValue) : OpOutcome

deriving instance DecidableEq for OpOutcome

/-- Translation of `Connector.prototype.set` (part_003 lines 97-120) up to
the engine round trip: invalid keys are reported synchronously as
`"Invalid key {key}"`; otherwise the value is transformed (which can
throw) and `session.run(query, value)` is issued. -/
def Connector.set (c : Connector) (key : String) (value : JSValue) :
    Except JSError OpOutcome :=
  match c.getSegments key with
  | none => .ok (.callbackError ("Invalid key " ++ key))
  | some segments => do
    let value ← transformValueForStorage value
    pure (.engineCall (c.getQuery "SET" segments value) value)

/-- Translation of `Connector.prototype.get` (part_003 lines 123-159) up to
the engine round trip; `session.run(query)` passes no parameters. -/
def Connector.get (c : Connector) (key : String) : OpOutcome :=
  match c.getSegments key with
  | none => .callbackError ("Invalid key " ++ key)
  | some segments => .engineCall (c.getQuery "GET" segments .undefined) .undefined

/-- Translation of `Connector.prototype.delete` (part_003 lines 161-181) up
to the engine round trip. -/
def Connector.delete (c : Connector) (key : String) : OpOutcome :=
  match c.getSegments key with
  | none => .callbackError ("Invalid key " ++ key)
  | some segments => .engineCall (c.getQuery "DELETE" segments .undefined) .undefined

/-- The options object handed to the constructor; each recognised option is
either absent (`none`) or a string (the empty string being the only falsy
string). -/
structure ConnectorOptions where
  connectionString : Option String
  userName : Option String
  password : Option String
  splitChar : Option String
  defaultLabel : Option String

/-- JavaScript falsiness of an optional string option. -/
def jsFalsyStr : Option String → Bool
  | none => true
  | some s => s = ""

/-- Translation of the constructor (part_003 lines 68-91) up to, but not
including, the external driver creation and readiness probe (lines 85-90):
`_defaultLabel` and `_splitChar` are initialised with `||`-defaulting, then
each required option is checked and a missing one throws immediately.  An
`.ok` result marks reaching line 85, i.e. the first connection attempt. -/
def Connector.construct (o : ConnectorOptions) : Except String Connector :=
  let defaultLabel := match o.defaultLabel with
    | some s => if s = "" then "DS_SCHEMA" else s
    | none => "DS_SCHEMA"
  let splitChar := match o.splitChar with
    | some s => if s = "" then none else some s
    | none => none
  if jsFalsyStr o.connectionString then
    .error "Missing setting \x27connectionString\x27"
  else if jsFalsyStr o.userName then
    .error "Missing setting \x27user\x27"
  else if jsFalsyStr o.password then
    .error "Missing setting \x27password\x27"
  else
    .ok ⟨defaultLabel, splitChar⟩

/-! ### Heap-based embedding of the transform functions

The pure embedding above cannot talk about object identity.  To settle the
frame/aliasing claim about `transform-data` (the functions mutate only the
deep copy produced by `JSON.parse(JSON.stringify ·))`, never their
argument, and return a structure disjoint from it), the functions are
re-expressed over an explicit store: runtime values are primitives or
references, objects and arrays live at store addresses, and `JSON.parse`
allocates fresh addresses. -/

/-- A runtime value: a primitive or a reference into the store. -/
inductive HVal where
  | undefined : HVal
  | null : HVal
  | bool (b : Bool) : HVal
  | num (n : Int) : HVal
  | str (s : String) : HVal
  | ref (a : Nat) : HVal

deriving instance DecidableEq for HVal

/-- A heap object: a property map (insertion order) or an array. -/
inductive HObj where
  | fields (fs : List (String × HVal)) : HObj
  | elems (xs : List HVal) : HObj

deriving instance DecidableEq for HObj

/-- The store: address `a` holds `store.get? a`; allocation appends. -/
abbrev Store := List HObj

/-- Property lookup in a heap property list. -/
def hLookup : List (String × HVal) → String → HVal
  | [], _ => .undefined
  | (k, v) :: t, key => if k = key then v else hLookup t key

/-- Property update in a heap property list (existing key keeps position,
new key appended). -/
def hSetKeyL : List (String × HVal) → String → HVal → List (String × HVal)
  | [], key, x => [(key, x)]
  | (k, v) :: t, key, x => if k = key then (key, x) :: t else (k, v) :: hSetKeyL t key x

/-- Property removal in a heap property list. -/
def hDelKeyL : List (String × HVal) → String → List (String × HVal)
  | [], _ => []
  | (k, v) :: t, key => if k = key then hDelKeyL t key else (k, v) :: hDelKeyL t key

mutual

/-- Reading the value tree denoted by a runtime value, with a recursion
budget; `none` means a dangling reference or an exhausted budget (the
latter corresponds to `JSON.stringify` overflowing on a cyclic or
excessively deep structure). -/
def readTree : Nat → Store → HVal → Option JSValue
  | 0, _, _ => none
  | _ + 1, _, .undefined => some .undefined
  | _ + 1, _, .null => some .null
  | _ + 1, _, .bool b => some (.bool b)
  | _ + 1, _, .num n => some (.num n)
  | _ + 1, _, .str s => some (.str s)
  | fuel + 1, h, .ref a =>
    match h.get? a with
    | none => none
    | some (.fields fs) => (readFieldsT fuel h fs).map JSValue.obj
    | some (.elems xs) => (readElemsT fuel h xs).map JSValue.arr

/-- Companion of `readTree` for property lists. -/
def readFieldsT : Nat → Store → List (String × HVal) → Option JSFields
  | 0, _, _ => none
  | _ + 1, _, [] => some .nil
  | fuel + 1, h, (k, v) :: t =>
    match readTree fuel h v, readFieldsT fuel h t with
    | some jv, some jt => some (.cons k jv jt)
    | _, _ => none

/-- Companion of `readTree` for element lists. -/
def readElemsT : Nat → Store → List HVal → Option JSList
  | 0, _, _ => none
  | _ + 1, _, [] => some .nil
  | fuel + 1, h, v :: t =>
    match readTree fuel h v, readElemsT fuel h t with
    | some jv, some jt => some (.cons jv jt)
    | _, _ => none

end

mutual

/-- Materialising a value tree in the store (the effect of `JSON.parse`):
every object and array of the tree is allocated at a fresh address. -/
def writeTree : Store → JSValue → Store × HVal
  | h, .undefined => (h, .undefined)
  | h, .null => (h, .null)
  | h, .bool b => (h, .bool b)
  | h, .num n => (h, .num n)
  | h, .str s => (h, .str s)
  | h, .arr xs =>
    let p := writeElemsT h xs
    (p.1 ++ [HObj.elems p.2], .ref p.1.length)
  | h, .obj fs =>
    let p := writeFieldsT h fs
    (p.1 ++ [HObj.fields p.2], .ref p.1.length)

def writeFieldsT : Store → JSFields → Store × List (String × HVal)
  | h, .nil => (h, [])
  | h, .cons k v t =>
    let p := writeTree h v
    let q := writeFieldsT p.1 t
    (q.1, (k, p.2) :: q.2)

def writeElemsT : Store → JSList → Store × List HVal
  | h, .nil => (h, [])
  | h, .cons v t =>
    let p := writeTree h v
    let q := writeElemsT p.1 t
    (q.1, p.2 :: q.2)

end

/-- Heap property read `base.k`: throws on `undefined`/`null`, yields
`undefined` on other primitives (auto-boxing) and on array bases. -/
def heapGetField (h : Store) (v : HVal) (k : String) : Except JSError HVal :=
  match v with
  | .undefined => .error .typeError
  | .null => .error .typeError
  | .ref a =>
    match h.get? a with
    | some (.fields fs) => .ok (hLookup fs k)
    | _ => .ok .undefined
  | _ => .ok .undefined

/-- Heap property write `base.k = x`: mutates the object in place; throws
on any primitive base (strict mode) and on array bases (expando
properties are not modelled; no claim reaches them). -/
def heapSetField (h : Store) (v : HVal) (k : String) (x : HVal) :
    Except JSError Store :=
  match v with
  | .ref a =>
    match h.get? a with
    | some (.fields fs) => .ok (h.set a (.fields (hSetKeyL fs k x)))
    | _ => .error .typeError
  | _ => .error .typeError

/-- Heap `delete base.k`: mutates the object in place, a no-op on every
other base reachable in the code under scrutiny. -/
def heapDeleteField (h : Store) (v : HVal) (k : String) : Store :=
  match v with
  | .ref a =>
    match h.get? a with
    | some (.fields fs) => h.set a (.fields (hDelKeyL fs k))
    | _ => h
  | _ => h

/-- `value instanceof Array` over the store. -/
def heapIsArray (h : Store) (v : HVal) : Bool :=
  match v with
  | .ref a =>
    match h.get? a with
    | some (.elems _) => true
    | _ => false
  | _ => false

/-- JavaScript truthiness over the store (all objects are truthy). -/
def heapTruthy : HVal → Bool
  | .undefined => false
  | .null => false
  | .bool b => b
  | .num n => n ≠ 0
  | .str s => s ≠ ""
  | .ref _ => true

/-- Allocation of a fresh object with the given fields. -/
def allocFields (h : Store) (fs : List (String × HVal)) : Store × HVal :=
  (h ++ [HObj.fields fs], .ref h.length)

/-- Body of the heap-level `transformValueForStorage`, acting after the
`JSON.stringify` read succeeded with the (non-`undefined`) tree `t`:
re-materialise the copy at fresh addresses (parse), then run the body's
reads, deletes and the final object literal against the store. -/
def forStorageBody (h : Store) (t : JSValue) : Except JSError (Store × HVal) :=
  let p := writeTree h (stripUndefined t)
  let h1 := p.1
  let value1 := p.2
  do
    let data ← heapGetField h1 value1 "_d"
    let h2 := heapDeleteField h1 value1 "_d"
    if heapIsArray h2 data then
      pure (allocFields h2 [("__dsList", data), ("__ds", value1)])
    else do
      let rels ← heapGetField h2 data "_rels"
      let h3 := heapDeleteField h2 data "_rels"
      pure (allocFields h3 [("_props", data), ("_rels", rels), ("__ds", value1)])

/-- Heap-level `transformValueForStorage`: `JSON.stringify` reads the
argument (failing on cycles/overflow, `undefined` making the subsequent
parse throw), then the body runs on the fresh copy. -/
def transformValueForStorageH (fuel : Nat) (h : Store) (value : HVal) :
    Except JSError (Store × HVal) :=
  match readTree fuel h value with
  | none => .error .circular
  | some .undefined => .error .syntaxError
  | some t => forStorageBody h t

/-- Body of the heap-level `transformValueFromStorage`; the assignment
`data._d._rels = value._rels` is genuine in-place mutation of the object
`data._d` refers to. -/
def fromStorageBody (h : Store) (t : JSValue) : Except JSError (Store × HVal) :=
  let p := writeTree h (stripUndefined t)
  let h1 := p.1
  let value1 := p.2
  if heapTruthy value1 = false then
    .ok (h1, .undefined)
  else do
    let data ← heapGetField h1 value1 "__ds"
    let h2 := heapDeleteField h1 value1 "__ds"
    let dsList ← heapGetField h2 value1 "__dsList"
    if heapIsArray h2 dsList then do
      let h3 ← heapSetField h2 data "_d" dsList
      pure (h3, data)
    else do
      let props ← heapGetField h2 value1 "_props"
      let h3 ← heapSetField h2 data "_d" props
      let props2 ← heapGetField h3 value1 "_props"
      if heapTruthy props2 then do
        let rels ← heapGetField h3 value1 "_rels"
        let dAlias ← heapGetField h3 data "_d"
        let h4 ← heapSetField h3 dAlias "_rels" rels
        let h5 := heapDeleteField h4 value1 "_rels"
        pure (h5, data)
      else do
        let h5 := heapDeleteField h3 value1 "_rels"
        pure (h5, data)

/-- Heap-level `transformValueFromStorage`. -/
def transformValueFromStorageH (fuel : Nat) (h : Store) (value : HVal) :
    Except JSError (Store × HVal) :=
  match readTree fuel h value with
  | none => .error .circular
  | some .undefined => .error .syntaxError
  | some t => fromStorageBody h t

/-- Reachability of a store address from a runtime value: the addresses of
the objects a caller can observe or mutate through that value. -/
inductive Reaches (h : Store) : HVal → Nat → Prop where
  | here (a : Nat) : Reaches h (.ref a) a
  | viaField (a b : Nat) (fs : List (String × HVal)) (k : String) (v : HVal) :
      h.get? a = some (.fields fs) → (k, v) ∈ fs → Reaches h v b → Reaches h (.ref a) b
  | viaElem (a b : Nat) (xs : List HVal) (v : HVal) :
      h.get? a = some (.elems xs) → v ∈ xs → Reaches h v b → Reaches h (.ref a) b

/-- A runtime value confined to the address region `[lo, hi)` (primitives
are vacuously confined). -/
def valConfined (lo hi : Nat) : HVal → Prop
  | .ref a => lo ≤ a ∧ a < hi
  | _ => True

/-- All references stored in a heap object, confined to `[lo, hi)`. -/
def objConfined (lo hi : Nat) : HObj → Prop
  | .fields fs => ∀ p, p ∈ fs → valConfined lo hi p.2
  | .elems xs => ∀ v, v ∈ xs → valConfined lo hi v

/-- Relation between the store a transform body started from and any store
it produces: the body only allocates and only mutates fresh addresses, so
the original contents are intact, and the fresh region is closed (fresh
objects reference only fresh addresses). -/
def Frame (h₀ h : Store) : Prop :=
  h₀.length ≤ h.length ∧
  (∀ i, i < h₀.length → h.get? i = h₀.get? i) ∧
  (∀ a o, h₀.length ≤ a → h.get? a = some o → objConfined h₀.length h.length o)

/-! ### Named concrete instances and shape predicates -/

/-- The connector configuration the test suite constructs:
`splitChar: '/'` and the default `DS_SCHEMA` label. -/
def stdConn : Connector := ⟨"DS_SCHEMA", some "/"⟩

/-- A connector whose `splitChar` option was never set
(`options.splitChar || null` leaves `null`). -/
def noSplitConn : Connector := ⟨"DS_SCHEMA", none⟩

/-- The `_rels` mapping used by the repository's test suite. -/
def relsObj : JSValue :=
  .obj (.cons "friends" (.obj (.cons "_v" (.num 0) (.cons "_count" (.num 0) .nil)))
    (.cons "groups" (.obj (.cons "_v" (.num 10) (.cons "_count" (.num 20) .nil)))
    (.cons "events" (.obj (.cons "_v" (.num 17) (.cons "_count" (.num 10) .nil))) .nil)))

/-- The external (deepstream-shape) object value of the test suite. -/
def testExternal : JSValue :=
  .obj (.cons "_d" (.obj (.cons "_rels" relsObj
    (.cons "firstname" (.str "John") (.cons "lastname" (.str "Smith") .nil))))
    (.cons "_v" (.num 12) .nil))

/-- The storage-shape value the test suite expects for `testExternal`. -/
def testStorage : JSValue :=
  .obj (.cons "_props" (.obj (.cons "firstname" (.str "John")
      (.cons "lastname" (.str "Smith") .nil)))
    (.cons "_rels" relsObj
    (.cons "__ds" (.obj (.cons "_v" (.num 12) .nil)) .nil)))

/-- The list-form external value of the test suite. -/
def testList : JSValue :=
  .obj (.cons "_d" (.arr (.cons (.str "John") (.cons (.str "Smith") .nil)))
    (.cons "_v" (.num 12) .nil))

/-- A well-formed external object value with no `_rels` entry (the shape of
the doc-comment example `{ _v: 1, _d: { name: ... } }` in transform-data). -/
def noRelsValue : JSValue :=
  .obj (.cons "_v" (.num 1) (.cons "_d" (.obj (.cons "name" (.str "x") .nil)) .nil))

/-- What the round trip actually returns for `noRelsValue`: the payload has
gained a `_rels` key holding `undefined`. -/
def noRelsRound : JSValue :=
  .obj (.cons "_v" (.num 1)
    (.cons "_d" (.obj (.cons "name" (.str "x") (.cons "_rels" .undefined .nil))) .nil))

/-- An external value `{_v, _d}` with the two fields in either insertion
order (`true`: `_d` first). -/
def mkExternal (dOrd : Bool) (n : Int) (d : JSValue) : JSValue :=
  if dOrd then .obj (.cons "_d" d (.cons "_v" (.num n) .nil))
  else .obj (.cons "_v" (.num n) (.cons "_d" d .nil))

/-- The storage value the forward transform builds from an object payload:
`{_props, _rels, __ds: {_v}}`. -/
def storageObj (n : Int) (props : List (String × JSValue)) (R : JSValue) : JSValue :=
  .obj (.cons "_props" (.obj (JSFields.ofList props))
    (.cons "_rels" R
    (.cons "__ds" (.obj (.cons "_v" (.num n) .nil)) .nil)))

/-- The storage value the forward transform builds from a list payload:
`{__dsList, __ds: {_v}}`. -/
def listStorageObj (n : Int) (xs : JSList) : JSValue :=
  .obj (.cons "__dsList" (.arr xs)
    (.cons "__ds" (.obj (.cons "_v" (.num n) .nil)) .nil))

/-- All elements of the list are scalars. -/
def scalarList : JSList → Bool
  | .nil => true
  | .cons h t => isScalar h && scalarList t

/-- All values of the association list are scalars. -/
def scalarPairs (l : List (String × JSValue)) : Bool :=
  l.all fun p => isScalar p.2

/-- Distinct keys (how two fields of one JS object always relate). -/
def keyNe (a b : String × JSValue) : Prop := a.1 ≠ b.1

/-- Well-formed External Value, list form: `{_v: n, _d: [scalars]}` in
either field order. -/
def WFListForm (v : JSValue) : Prop :=
  ∃ (dOrd : Bool) (n : Int) (xs : JSList),
    scalarList xs = true ∧ v = mkExternal dOrd n (.arr xs)

/-- Well-formed External Value, object form with a `_rels` entry: the
payload holds scalar properties plus `_rels` (anywhere in insertion
order); keys are pairwise distinct and `R`, the relation mapping, is any
`undefined`-free value. -/
def WFObjRelsForm (v : JSValue) : Prop :=
  ∃ (dOrd : Bool) (n : Int) (p₁ p₂ : List (String × JSValue)) (R : JSValue),
    scalarPairs (p₁ ++ p₂) = true ∧ noUndefined R = true ∧
    (p₁ ++ ("_rels", R) :: p₂).Pairwise keyNe ∧
    v = mkExternal dOrd n (.obj (JSFields.ofList (p₁ ++ ("_rels", R) :: p₂)))

/-- Well-formed External Value, object form without `_rels`: scalar
properties only. -/
def WFObjNoRelsForm (v : JSValue) : Prop :=
  ∃ (dOrd : Bool) (n : Int) (p : List (String × JSValue)),
    scalarPairs p = true ∧ p.Pairwise keyNe ∧ (∀ q ∈ p, q.1 ≠ "_rels") ∧
    v = mkExternal dOrd n (.obj (JSFields.ofList p))

/-- Query text before the id for `GET ["USERS", id]` on `stdConn`. -/
def c4pre : String := "MATCH (ds:__DS \x7b _key: \x27"

/-- Query text after the id for `GET ["USERS", id]` on `stdConn`. -/
def c4post : String :=
  "\x27 \x7d)-[ds_r:__ds]->(n:USERS) MATCH (n)-[r]->(m) WHERE type(r) IN ds_r.schema "
    ++ "RETURN \x7b __ds: properties(ds),\n                            "
    ++ "_props: properties(n),\n                            "
    ++ "_rel_keys: collect(type(r)), \n                            "
    ++ "_rel_vals: collect(properties(m)) \x7d AS value"

/-- `testExternal` materialised in an empty store (the caller's heap). -/
def c8forPair : Store × HVal := writeTree [] testExternal

/-- `testStorage` materialised in an empty store. -/
def c8fromPair : Store × HVal := writeTree [] testStorage

/-- The store and result of running the heap-level forward transform on the
materialised `testExternal`. -/
def c8forOut : Store × HVal :=
  (transformValueForStorageH 20 c8forPair.1 c8forPair.2).toOption.getD ([], .undefined)

/-- The store and result of running the heap-level backward transform on
the materialised `testStorage`. -/
def c8fromOut : Store × HVal :=
  (transformValueFromStorageH 20 c8fromPair.1 c8fromPair.2).toOption.getD ([], .undefined)

/-- A storage value with the same relation names as `testStorage` but
different property and descriptor values. -/
def altStorage : JSValue :=
  .obj (.cons "_props" (.obj (.cons "firstname" (.str "Jane")
      (.cons "lastname" (.str "Doe") .nil)))
    (.cons "_rels" (.obj (.cons "friends" (.obj (.cons "_v" (.num 99) .nil))
      (.cons "groups" (.obj (.cons "_v" (.num 98) .nil))
      (.cons "events" (.obj (.cons "_v" (.num 97) .nil)) .nil))))
    (.cons "__ds" (.obj (.cons "_v" (.num 44) .nil)) .nil)))

instance : DecidableRel keyNe := fun a b => inferInstanceAs (Decidable (a.1 ≠ b.1))

/-- The value the round trip produces for `testExternal`. -/
def c1m : JSValue := (roundTrip testExternal).toOption.getD .undefined

/-! ## Theorems -/

theorem jsToUpper_empty : jsToUpper "" = "" := rfl

theorem upperAlternate_getD (j : Nat) (l : List String) (i : Nat) :
    (upperAlternate j l).getD i "" =
      if (j + i) % 2 = 0 then jsToUpper (l.getD i "") else l.getD i "" := by
  induction l generalizing j i with
  | nil => simp [upperAlternate, jsToUpper_empty]
  | cons s rest ih =>
    cases i with
    | zero => simp [upperAlternate]
    | succ i =>
      simp only [upperAlternate, List.getD_cons_succ]
      rw [ih (j + 1) i]
      have harith : j + 1 + i = j + (i + 1) := by omega
      rw [harith]

/-- C2: for every key that passes validation the segmenter uppercases the
split element at every even index and keeps odd-indexed elements; a
single-element split is rewritten to `"{defaultLabel}:{element}"` (with the
element already uppercased, as in `"bla"` ↦ `["DS_SCHEMA:BLA"]`). -/
theorem c2_segment_normalization (c : Connector) (key : String) (s0 : String)
    (rest : List String) (hsplit : jsSplit c.splitChar key = s0 :: rest)
    (h1 : s0 ≠ "") (h2 : s0 ≠ c.defaultLabel) :
    c.getSegments key =
      some (if rest = [] then [c.defaultLabel ++ ":" ++ jsToUpper s0]
            else upperAlternate 0 (s0 :: rest)) ∧
    (∀ i, i < (s0 :: rest).length →
      (upperAlternate 0 (s0 :: rest)).getD i "" =
        if i % 2 = 0 then jsToUpper ((s0 :: rest).getD i "")
        else (s0 :: rest).getD i "") := by
  constructor
  · unfold Connector.getSegments
    rw [hsplit]
    have hcond : ¬((s0 :: rest).head? = some "" ∨
        (s0 :: rest).head? = some c.defaultLabel) := by
      simp [h1, h2]
    rw [if_neg hcond]
    cases rest with
    | nil => simp [upperAlternate]
    | cons r rs => simp [upperAlternate]
  · intro i _
    simpa using upperAlternate_getD 0 (s0 :: rest) i

/-- Witness for C2 at the test suite's keys. -/
theorem c2_witness :
    stdConn.getSegments "a/b/c" = some ["A", "b", "C"] ∧
    stdConn.getSegments "bla" = some ["DS_SCHEMA:BLA"] := by
  have h1 := (c2_segment_normalization stdConn "a/b/c" "a" ["b", "c"]
    (by decide) (by decide) (by decide)).1
  have h2 := (c2_segment_normalization stdConn "bla" "bla" []
    (by decide) (by decide) (by decide)).1
  exact ⟨h1.trans (by decide), h2.trans (by decide)⟩

/-- C3: a key whose first split element is empty or equals the default
label is rejected by the segmenter, and `set`/`get`/`delete` then call the
callback synchronously with exactly `"Invalid key {key}"`, building no
query and performing no engine call. -/
theorem c3_invalid_key_rejection (c : Connector) (key : String) (v : JSValue)
    (h : (jsSplit c.splitChar key).head? = some "" ∨
         (jsSplit c.splitChar key).head? = some c.defaultLabel) :
    c.getSegments key = none ∧
    c.set key v = .ok (.callbackError ("Invalid key " ++ key)) ∧
    c.get key = .callbackError ("Invalid key " ++ key) ∧
    c.delete key = .callbackError ("Invalid key " ++ key) := by
  have hseg : c.getSegments key = none := by
    unfold Connector.getSegments
    rw [if_pos h]
  exact ⟨hseg, by simp [Connector.set, hseg], by simp [Connector.get, hseg],
    by simp [Connector.delete, hseg]⟩

/-- Witness for C3 at the test suite's invalid key. -/
theorem c3_witness :
    stdConn.getSegments "/a/b/c" = none ∧
    stdConn.set "/a/b/c" (.obj .nil) = .ok (.callbackError "Invalid key /a/b/c") ∧
    stdConn.get "/a/b/c" = .callbackError "Invalid key /a/b/c" ∧
    stdConn.delete "/a/b/c" = .callbackError "Invalid key /a/b/c" :=
  c3_invalid_key_rejection stdConn "/a/b/c" (.obj .nil) (by decide)

/-- C5 (counterexample): `transformValueFromStorage` applied to an object
with no fields does not produce a "no value" result: it throws a
`TypeError` (the code assigns `data._d` with `data` being `undefined`). -/
theorem c5_counterexample :
    transformValueFromStorage (.obj .nil) = .error .typeError := rfl

/-- C5 (amended): `transformValueFromStorage` yields the explicit
no-value result `undefined` for `null` input, but throws a `SyntaxError`
for an `undefined` input (the `JSON` copy precedes the falsy guard) and a
`TypeError` for an object with no fields. -/
theorem c5_amended_empty_inputs :
    transformValueFromStorage .null = .ok .undefined ∧
    transformValueFromStorage .undefined = .error .syntaxError ∧
    transformValueFromStorage (.obj .nil) = .error .typeError :=
  ⟨rfl, rfl, rfl⟩

/-- C6 (counterexample): with `splitChar` unset, segmenting does not fail:
`"bla"` is split on the literal string `"null"` and is accepted. -/
theorem c6_counterexample :
    noSplitConn.getSegments "bla" = some ["DS_SCHEMA:BLA"] := by decide

/-- C6 (amended): when `splitChar` is unset, `key.split(null)` splits on
the string `"null"` (JavaScript stringifies the separator), so the
segmenter behaves exactly as if the separator were `"null"`; it does not
fail. -/
theorem c6_amended_null_separator (dl : String) (key : String) :
    Connector.getSegments ⟨dl, none⟩ key = Connector.getSegments ⟨dl, some "null"⟩ key := rfl

/-- C7: construction fails (by throwing) iff one of the required options
`connectionString`, `userName`, `password` is missing/falsy; the checks
precede the driver hand-off, so a failure happens before any connection
attempt, and with all three present the constructor reaches the driver
hand-off without throwing. -/
theorem c7_constructor_option_checks (o : ConnectorOptions) :
    (∃ e, Connector.construct o = .error e) ↔
      (jsFalsyStr o.connectionString = true ∨ jsFalsyStr o.userName = true ∨
       jsFalsyStr o.password = true) := by
  unfold Connector.construct
  split_ifs with h1 h2 h3 <;> simp_all

/-- C9: for every action and every segment list of length at least 3,
`_getQuery` returns the empty string, and `get`/`delete`/`set` on a key
segmenting to such a list still submit that empty query to the engine
instead of rejecting the key. -/
theorem c9_long_keys_empty_query (c : Connector) (action : String)
    (segs : List String) (values : JSValue) (h3 : 3 ≤ segs.length) :
    c.getQuery action segs values = "" ∧
    (∀ key, c.getSegments key = some segs →
      c.get key = .engineCall "" .undefined ∧
      c.delete key = .engineCall "" .undefined ∧
      (∀ v v', transformValueForStorage v = .ok v' →
        c.set key v = .ok (.engineCall "" v'))) := by
  have hq : ∀ (a : String) (vv : JSValue), c.getQuery a segs vv = "" := by
    intro a vv
    unfold Connector.getQuery
    rw [if_neg (by omega)]
  refine ⟨hq action values, fun key hkey => ⟨?_, ?_, fun v v' hv => ?_⟩⟩
  · simp [Connector.get, hkey, hq]
  · simp [Connector.delete, hkey, hq]
  · simp [Connector.set, hkey, hv, hq]

/-- Witness for C9 at the three-segment key `"a/b/c"`. -/
theorem c9_witness :
    stdConn.getQuery "GET" ["A", "b", "C"] .undefined = "" ∧
    stdConn.get "a/b/c" = .engineCall "" .undefined := by
  have h := c9_long_keys_empty_query stdConn "GET" ["A", "b", "C"] .undefined (by decide)
  exact ⟨h.1, (h.2 "a/b/c" (by decide)).1⟩

/-- C10: the default-label rejection is case-sensitive and happens before
case normalisation: a first element that is a different spelling of the
default label but uppercases to it is accepted, and the resulting first
segment is the default label itself (or `"{label}:{label}"` for a
single-element key). -/
theorem c10_case_sensitive_label_check (c : Connector) (key : String)
    (e : String) (rest : List String) (hsplit : jsSplit c.splitChar key = e :: rest)
    (h1 : e ≠ "") (h2 : e ≠ c.defaultLabel) (h3 : jsToUpper e = c.defaultLabel) :
    c.getSegments key =
      some (if rest = [] then [c.defaultLabel ++ ":" ++ c.defaultLabel]
            else c.defaultLabel :: upperAlternate 1 rest) := by
  unfold Connector.getSegments
  rw [hsplit]
  have hcond : ¬((e :: rest).head? = some "" ∨
      (e :: rest).head? = some c.defaultLabel) := by
    simp [h1, h2]
  rw [if_neg hcond]
  cases rest with
  | nil => simp [upperAlternate, h3]
  | cons r rs => simp [upperAlternate, h3]

/-- Witness for C10 at `"ds_schema/x"` with the default label. -/
theorem c10_witness :
    stdConn.getSegments "ds_schema/x" = some ["DS_SCHEMA", "x"] := by
  have h := c10_case_sensitive_label_check stdConn "ds_schema/x" "ds_schema" ["x"]
    (by decide) (by decide) (by decide) (by decide)
  exact h.trans (by decide)

/-- C4 (counterexample): the id segment is interpolated directly into the
query text — the query for id `"zq1x"` literally contains `"zq1x"` between
the single quotes of the `_key` pattern, so the claim that user-supplied
data is never interpolated into the query string is false. -/
theorem c4_counterexample_id_in_text :
    stdConn.getQuery "GET" ["USERS", "zq1x"] .undefined = c4pre ++ "zq1x" ++ c4post := by
  decide

/-- C4 (amended): property and metadata values are passed only through the
bound-parameter references `$__ds`, `$_props` and `$_rels.{rel}` — the
synthesized text depends on the value only through its truthiness and the
`for...in` key sequence of `values._rels` (its own enumerable keys in
enumeration order; index strings when `_rels` is a string or an array) —
but the id segment, the label and the enumerated relation names themselves
are spliced into the text. -/
theorem c4_amended_values_only_via_parameters (c : Connector) (action : String)
    (segs : List String) (v₁ v₂ : JSValue)
    (ht : truthy v₁ = truthy v₂)
    (hk : forInKeys (fieldOf v₁ "_rels") = forInKeys (fieldOf v₂ "_rels")) :
    c.getQuery action segs v₁ = c.getQuery action segs v₂ := by
  unfold Connector.getQuery
  rw [ht, hk]

/-- Witness for C4: two SET values with equal relation names but different
property and descriptor payloads synthesize identical query text. -/
theorem c4_witness :
    stdConn.getQuery "SET" ["USERS", "123"] testStorage =
      stdConn.getQuery "SET" ["USERS", "123"] altStorage :=
  c4_amended_values_only_via_parameters stdConn "SET" ["USERS", "123"]
    testStorage altStorage (by decide) (by decide)

/-! ### Order lemmas for the canonical field order -/

theorem charsLE_total (as bs : List Char) : charsLE as bs = true ∨ charsLE bs as = true := by
  induction as generalizing bs with
  | nil => left; rfl
  | cons a at' ih =>
    cases bs with
    | nil => right; rfl
    | cons b bt =>
      simp only [charsLE]
      by_cases hab : a = b
      · subst hab; simp only [if_pos rfl]; exact ih bt
      · have hba : b ≠ a := fun h => hab h.symm
        rcases lt_or_gt_of_ne hab with h | h
        · left; simp [hab, h]
        · right; simp [hba, h]

theorem charsLE_trans (as bs cs : List Char) (hab : charsLE as bs = true)
    (hbc : charsLE bs cs = true) : charsLE as cs = true := by
  induction as generalizing bs cs with
  | nil => rfl
  | cons a at' ih =>
    cases bs with
    | nil => simp [charsLE] at hab
    | cons b bt =>
      cases cs with
      | nil => simp [charsLE] at hbc
      | cons c ct =>
        simp only [charsLE] at hab hbc ⊢
        by_cases h1 : a = b
        · subst h1
          simp only [if_pos rfl] at hab
          by_cases h2 : a = c
          · subst h2; simp only [if_pos rfl] at hbc ⊢; exact ih bt ct hab hbc
          · simp only [if_neg h2] at hbc ⊢; exact hbc
        · simp only [if_neg h1] at hab
          by_cases h2 : b = c
          · subst h2; simp [h1] at hab ⊢; exact hab
          · simp only [if_neg h2] at hbc
            have hac : a < c := lt_trans (by simpa using hab) (by simpa using hbc)
            have hne : a ≠ c := ne_of_lt hac
            simp [hne, hac]

theorem charsLE_antisymm (as bs : List Char) (hab : charsLE as bs = true)
    (hba : charsLE bs as = true) : as = bs := by
  induction as generalizing bs with
  | nil =>
    cases bs with
    | nil => rfl
    | cons b bt => simp [charsLE] at hba
  | cons a at' ih =>
    cases bs with
    | nil => simp [charsLE] at hab
    | cons b bt =>
      simp only [charsLE] at hab hba
      by_cases h1 : a = b
      · subst h1
        simp only [if_pos rfl] at hab hba
        rw [ih bt hab hba]
      · have hba' : b ≠ a := fun h => h1 h.symm
        simp only [if_neg h1] at hab
        simp only [if_neg hba'] at hba
        exact absurd (by simpa using hba) (lt_asymm (by simpa using hab))

theorem strLE_antisymm (a b : String) (hab : strLE a b = true)
    (hba : strLE b a = true) : a = b := by
  cases a; cases b
  exact congrArg String.mk (charsLE_antisymm _ _ hab hba)

/-- Two permuted field lists with pairwise-distinct keys sort identically. -/
theorem sortFields_eq_of_perm (l₁ l₂ : List (String × JSValue)) (hp : l₁.Perm l₂)
    (hn : l₁.Pairwise keyNe) : sortFields l₁ = sortFields l₂ := by
  haveI : IsTotal (String × JSValue) keyLE := ⟨fun a b => charsLE_total a.1.data b.1.data⟩
  haveI : IsTrans (String × JSValue) keyLE := ⟨fun a b c h1 h2 => charsLE_trans _ _ _ h1 h2⟩
  have hs₁ : List.Sorted keyLE (sortFields l₁) := List.sorted_insertionSort keyLE l₁
  have hs₂ : List.Sorted keyLE (sortFields l₂) := List.sorted_insertionSort keyLE l₂
  have hperm : (sortFields l₁).Perm (sortFields l₂) :=
    (List.perm_insertionSort keyLE l₁).trans (hp.trans (List.perm_insertionSort keyLE l₂).symm)
  have hsymm : Symmetric keyNe := fun _ _ h => Ne.symm h
  have hn₁ : (sortFields l₁).Pairwise keyNe :=
    (((List.perm_insertionSort keyLE l₁)).pairwise_iff (fun h => hsymm h)).mpr hn
  have hn₂ : (sortFields l₂).Pairwise keyNe :=
    (hperm.pairwise_iff (fun h => hsymm h)).mp hn₁
  haveI : IsAntisymm (String × JSValue) (fun a b => keyLE a b ∧ keyNe a b) :=
    ⟨fun a b h1 h2 => absurd (strLE_antisymm a.1 b.1 h1.1 h2.1) h1.2⟩
  exact List.eq_of_perm_of_sorted (r := fun a b => keyLE a b ∧ keyNe a b) hperm
    (hs₁.and hn₁) (hs₂.and hn₂)

/-! ### Structural lemmas about the JSON copy and field operations -/

mutual

theorem stripUndef_eq_self : (v : JSValue) → noUndefined v = true → stripUndefined v = v
  | .undefined, h => by simp [noUndefined] at h
  | .null, _ => rfl
  | .bool _, _ => rfl
  | .num _, _ => rfl
  | .str _, _ => rfl
  | .arr xs, h => by
    rw [stripUndefined, stripList_eq_self xs (by simpa [noUndefined] using h)]
  | .obj fs, h => by
    rw [stripUndefined, stripFields_eq_self fs (by simpa [noUndefined] using h)]

theorem stripList_eq_self : (xs : JSList) → noUndefinedList xs = true → stripList xs = xs
  | .nil, _ => rfl
  | .cons hd t, h => by
    have h1 : noUndefined hd = true := by
      have := h
      simp [noUndefinedList, Bool.and_eq_true] at this
      exact this.1
    have h2 : noUndefinedList t = true := by
      have := h
      simp [noUndefinedList, Bool.and_eq_true] at this
      exact this.2
    have ht := stripList_eq_self t h2
    cases hd with
    | undefined => simp [noUndefined] at h1
    | null => simp [stripList, stripUndefined, ht]
    | bool b => simp [stripList, stripUndefined, ht]
    | num n => simp [stripList, stripUndefined, ht]
    | str s => simp [stripList, stripUndefined, ht]
    | arr ys => simp [stripList, ht, stripUndef_eq_self _ h1]
    | obj gs => simp [stripList, ht, stripUndef_eq_self _ h1]

theorem stripFields_eq_self : (fs : JSFields) → noUndefinedFields fs = true → stripFields fs = fs
  | .nil, _ => rfl
  | .cons k v t, h => by
    have h1 : noUndefined v = true := by
      have := h
      simp [noUndefinedFields, Bool.and_eq_true] at this
      exact this.1
    have h2 : noUndefinedFields t = true := by
      have := h
      simp [noUndefinedFields, Bool.and_eq_true] at this
      exact this.2
    have hne : v ≠ .undefined := by
      intro e; subst e; simp [noUndefined] at h1
    rw [stripFields, if_neg hne, stripUndef_eq_self v h1, stripFields_eq_self t h2]

end

theorem scalar_noUndefined (v : JSValue) (h : isScalar v = true) : noUndefined v = true := by
  cases v <;> simp_all [isScalar, noUndefined]

theorem toList_ofList (l : List (String × JSValue)) :
    (JSFields.ofList l).toList = l := by
  induction l with
  | nil => rfl
  | cons p t ih => cases p; simp [JSFields.ofList, JSFields.toList, ih]

theorem noUndefFields_ofList (l : List (String × JSValue)) :
    noUndefinedFields (JSFields.ofList l) = l.all fun p => noUndefined p.2 := by
  induction l with
  | nil => rfl
  | cons p t ih => cases p; simp [JSFields.ofList, noUndefinedFields, ih]

theorem scalarPairs_noUndefined (l : List (String × JSValue)) (h : scalarPairs l = true) :
    (l.all fun p => noUndefined p.2) = true := by
  simp only [scalarPairs, List.all_eq_true] at h ⊢
  exact fun p hp => scalar_noUndefined p.2 (h p hp)

theorem noUndefList_of_scalarList : (xs : JSList) → scalarList xs = true →
    noUndefinedList xs = true
  | .nil, _ => rfl
  | .cons hd t, h => by
    simp only [scalarList, Bool.and_eq_true] at h
    simp [noUndefinedList, scalar_noUndefined hd h.1, noUndefList_of_scalarList t h.2]

theorem lookup_ofList_notin (l : List (String × JSValue)) (k : String)
    (h : ∀ q ∈ l, q.1 ≠ k) : (JSFields.ofList l).lookup k = .undefined := by
  induction l with
  | nil => rfl
  | cons p t ih =>
    cases p with
    | mk pk pv =>
      have hk : pk ≠ k := h (pk, pv) (by simp)
      simp only [JSFields.ofList, JSFields.lookup, if_neg hk]
      exact ih fun q hq => h q (by simp [hq])

theorem lookup_ofList_middle (p₁ p₂ : List (String × JSValue)) (k : String) (x : JSValue)
    (h : ∀ q ∈ p₁, q.1 ≠ k) :
    (JSFields.ofList (p₁ ++ (k, x) :: p₂)).lookup k = x := by
  induction p₁ with
  | nil => simp [JSFields.ofList, JSFields.lookup]
  | cons p t ih =>
    cases p with
    | mk pk pv =>
      have hk : pk ≠ k := h (pk, pv) (by simp)
      simp only [List.cons_append, JSFields.ofList, JSFields.lookup, if_neg hk]
      exact ih fun q hq => h q (by simp [hq])

theorem delKey_ofList_notin (l : List (String × JSValue)) (k : String)
    (h : ∀ q ∈ l, q.1 ≠ k) : (JSFields.ofList l).delKey k = JSFields.ofList l := by
  induction l with
  | nil => rfl
  | cons p t ih =>
    cases p with
    | mk pk pv =>
      have hk : pk ≠ k := h (pk, pv) (by simp)
      simp only [JSFields.ofList, JSFields.delKey, if_neg hk]
      rw [ih fun q hq => h q (by simp [hq])]

theorem delKey_ofList_middle (p₁ p₂ : List (String × JSValue)) (k : String) (x : JSValue)
    (h₁ : ∀ q ∈ p₁, q.1 ≠ k) (h₂ : ∀ q ∈ p₂, q.1 ≠ k) :
    (JSFields.ofList (p₁ ++ (k, x) :: p₂)).delKey k = JSFields.ofList (p₁ ++ p₂) := by
  induction p₁ with
  | nil =>
    simp only [List.nil_append, JSFields.ofList, JSFields.delKey, if_pos rfl]
    exact delKey_ofList_notin p₂ k h₂
  | cons p t ih =>
    cases p with
    | mk pk pv =>
      have hk : pk ≠ k := h₁ (pk, pv) (by simp)
      simp only [List.cons_append, JSFields.ofList, JSFields.delKey, if_neg hk]
      exact congrArg (JSFields.cons pk pv) (ih fun q hq => h₁ q (by simp [hq]))

theorem setKey_ofList_notin (l : List (String × JSValue)) (k : String) (x : JSValue)
    (h : ∀ q ∈ l, q.1 ≠ k) :
    (JSFields.ofList l).setKey k x = JSFields.ofList (l ++ [(k, x)]) := by
  induction l with
  | nil => rfl
  | cons p t ih =>
    cases p with
    | mk pk pv =>
      have hk : pk ≠ k := h (pk, pv) (by simp)
      simp only [List.cons_append, JSFields.ofList, JSFields.setKey, if_neg hk]
      exact congrArg (JSFields.cons pk pv) (ih fun q hq => h q (by simp [hq]))

theorem stripFields_ofList_scalars (l : List (String × JSValue))
    (h : scalarPairs l = true) :
    stripFields (JSFields.ofList l) = JSFields.ofList l :=
  stripFields_eq_self _ (by rw [noUndefFields_ofList]; exact scalarPairs_noUndefined l h)

theorem stripFields_ofList_plus_undefined (l : List (String × JSValue)) (k : String)
    (h : scalarPairs l = true) :
    stripFields (JSFields.ofList (l ++ [(k, .undefined)])) = JSFields.ofList l := by
  induction l with
  | nil => rfl
  | cons p t ih =>
    cases p with
    | mk pk pv =>
      simp only [scalarPairs, List.all_cons, Bool.and_eq_true] at h
      have hne : pv ≠ .undefined := by
        intro e; subst e; simp [isScalar] at h
      simp only [List.cons_append, JSFields.ofList, stripFields, if_neg hne]
      rw [stripUndef_eq_self pv (scalar_noUndefined pv h.1)]
      exact congrArg (JSFields.cons pk pv) (ih (by simp [scalarPairs, h.2]))

/-! ### Normal-form lemmas -/

theorem normv_scalar (v : JSValue) (h : isScalar v = true) : normv v = v := by
  cases v <;> first | rfl | simp [isScalar] at h

theorem normFields_ofList (l : List (String × JSValue)) :
    normFields (JSFields.ofList l) =
      JSFields.ofList (l.map fun p => (p.1, normv p.2)) := by
  induction l with
  | nil => rfl
  | cons p t ih => cases p; simp [JSFields.ofList, normFields, ih]

theorem map_normv_scalarPairs (l : List (String × JSValue)) (h : scalarPairs l = true) :
    (l.map fun p => (p.1, normv p.2)) = l := by
  induction l with
  | nil => rfl
  | cons p t ih =>
    cases p with
    | mk pk pv =>
      simp only [scalarPairs, List.all_cons, Bool.and_eq_true] at h
      simp [normv_scalar pv h.1, ih (by simp [scalarPairs, h.2])]

theorem norm_obj_ofList (l : List (String × JSValue)) :
    normv (.obj (JSFields.ofList l)) =
      .obj (JSFields.ofList (sortFields (l.map fun p => (p.1, normv p.2)))) := by
  rw [normv, normFields_ofList, toList_ofList]

theorem norm_mkExternal (dOrd : Bool) (n : Int) (d : JSValue) :
    normv (mkExternal dOrd n d) =
      .obj (.cons "_d" (normv d) (.cons "_v" (.num n) .nil)) := by
  have hdv : keyLE ("_d", normv d) ("_v", JSValue.num n) := of_decide_eq_true rfl
  have hvd : ¬ keyLE ("_v", JSValue.num n) ("_d", normv d) := of_decide_eq_false rfl
  cases dOrd <;>
    simp [mkExternal, normv, normFields, JSFields.toList, JSFields.ofList,
      sortFields, List.insertionSort, List.orderedInsert, hdv, hvd]

theorem deepEqual_of_norm_eq (a b : JSValue) (h : normv a = normv b) :
    deepEqual a b = true := by
  simp [deepEqual, h]

theorem except_bind_ok {α β : Type} (a : α) (f : α → Except JSError β) :
    (Except.ok a : Except JSError α) >>= f = f a := rfl

theorem except_bind_error {α β : Type} (e : JSError) (f : α → Except JSError β) :
    (Except.error e : Except JSError α) >>= f = .error e := rfl

theorem except_map_ok {α β : Type} (f : α → β) (a : α) :
    f <$> (Except.ok a : Except JSError α) = .ok (f a) := rfl

theorem except_map_error {α β : Type} (f : α → β) (e : JSError) :
    f <$> (Except.error e : Except JSError α) = .error e := rfl

theorem except_pure_eq_ok {α : Type} (a : α) : (pure a : Except JSError α) = .ok a := rfl

theorem forward_list (dOrd : Bool) (n : Int) (xs : JSList) (h : noUndefinedList xs = true) :
    transformValueForStorage (mkExternal dOrd n (.arr xs)) = .ok (listStorageObj n xs) := by
  have hx : stripList xs = xs := stripList_eq_self xs h
  cases dOrd <;>
    simp [mkExternal, transformValueForStorage, jsonRoundTrip, except_bind_ok, except_map_ok, except_map_error, except_pure_eq_ok, stripUndefined, stripFields,
      stripList, hx, propGet, fieldOf, JSFields.lookup, deleteField, JSFields.delKey,
      isArrayV, listStorageObj] <;> rfl

theorem backward_list (n : Int) (xs : JSList) (h : noUndefinedList xs = true) :
    transformValueFromStorage (listStorageObj n xs) =
      .ok (.obj (.cons "_v" (.num n) (.cons "_d" (.arr xs) .nil))) := by
  have hx := stripList_eq_self xs h
  simp [listStorageObj, transformValueFromStorage, jsonRoundTrip, except_bind_ok, except_map_ok, except_map_error, except_pure_eq_ok, stripUndefined, stripFields,
    stripList, hx, truthy, fieldOf, JSFields.lookup, deleteField, JSFields.delKey,
    isArrayV, propSet, JSFields.setKey] <;> rfl

theorem forward_obj_rels (dOrd : Bool) (n : Int) (p₁ p₂ : List (String × JSValue)) (R : JSValue)
    (hs : scalarPairs (p₁ ++ p₂) = true) (hR : noUndefined R = true)
    (h1 : ∀ q ∈ p₁, q.1 ≠ "_rels") (h2 : ∀ q ∈ p₂, q.1 ≠ "_rels") :
    transformValueForStorage
        (mkExternal dOrd n (.obj (JSFields.ofList (p₁ ++ ("_rels", R) :: p₂)))) =
      .ok (storageObj n (p₁ ++ p₂) R) := by
  have hnf : noUndefinedFields (JSFields.ofList (p₁ ++ ("_rels", R) :: p₂)) = true := by
    rw [noUndefFields_ofList]
    have hh := scalarPairs_noUndefined _ hs
    simp only [List.all_append, Bool.and_eq_true, List.all_cons] at hh ⊢
    exact ⟨hh.1, hR, hh.2⟩
  have hstrip := stripFields_eq_self _ hnf
  have hlook := lookup_ofList_middle p₁ p₂ "_rels" R h1
  have hdel := delKey_ofList_middle p₁ p₂ "_rels" R h1 h2
  cases dOrd <;>
    simp [mkExternal, transformValueForStorage, jsonRoundTrip, except_bind_ok, except_map_ok, except_map_error, except_pure_eq_ok, stripUndefined, stripFields,
      hstrip, propGet, fieldOf, JSFields.lookup, deleteField, JSFields.delKey,
      isArrayV, storageObj, hlook, hdel] <;> rfl

theorem backward_obj_rels (n : Int) (props : List (String × JSValue)) (R : JSValue)
    (hs : scalarPairs props = true) (hR : noUndefined R = true) (hRne : R ≠ .undefined)
    (hk : ∀ q ∈ props, q.1 ≠ "_rels") :
    transformValueFromStorage (storageObj n props R) =
      .ok (.obj (.cons "_v" (.num n)
        (.cons "_d" (.obj (JSFields.ofList (props ++ [("_rels", R)]))) .nil))) := by
  have hstrip := stripFields_ofList_scalars props hs
  have hRs := stripUndef_eq_self R hR
  have hset := setKey_ofList_notin props "_rels" R hk
  simp [storageObj, transformValueFromStorage, jsonRoundTrip, except_bind_ok, except_map_ok, except_map_error, except_pure_eq_ok, stripUndefined, stripFields,
    hstrip, hRs, hRne, truthy, fieldOf, JSFields.lookup, deleteField, JSFields.delKey,
    isArrayV, propSet, JSFields.setKey, hset] <;> rfl

theorem forward_obj_on_result (n : Int) (props : List (String × JSValue)) (R : JSValue)
    (hs : scalarPairs props = true) (hR : noUndefined R = true) (hRne : R ≠ .undefined)
    (hk : ∀ q ∈ props, q.1 ≠ "_rels") :
    transformValueForStorage (.obj (.cons "_v" (.num n)
        (.cons "_d" (.obj (JSFields.ofList (props ++ [("_rels", R)]))) .nil))) =
      .ok (storageObj n props R) := by
  have hnf : noUndefinedFields (JSFields.ofList (props ++ [("_rels", R)])) = true := by
    rw [noUndefFields_ofList]
    have hh := scalarPairs_noUndefined _ hs
    simp [List.all_append, hh, hR]
  have hstrip := stripFields_eq_self _ hnf
  have hlook := lookup_ofList_middle props [] "_rels" R hk
  have hdel := delKey_ofList_middle props [] "_rels" R hk (by simp)
  simp only [List.append_nil] at hdel
  simp [transformValueForStorage, jsonRoundTrip, except_bind_ok, except_map_ok, except_map_error, except_pure_eq_ok, stripUndefined, stripFields, hstrip,
    propGet, fieldOf, JSFields.lookup, deleteField, JSFields.delKey, isArrayV,
    storageObj, hlook, hdel] <;> rfl

theorem forward_obj_norels (dOrd : Bool) (n : Int) (p : List (String × JSValue))
    (hs : scalarPairs p = true) (hk : ∀ q ∈ p, q.1 ≠ "_rels") :
    transformValueForStorage (mkExternal dOrd n (.obj (JSFields.ofList p))) =
      .ok (storageObj n p .undefined) := by
  have hstrip := stripFields_ofList_scalars p hs
  have hlook := lookup_ofList_notin p "_rels" hk
  have hdel := delKey_ofList_notin p "_rels" hk
  cases dOrd <;>
    simp [mkExternal, transformValueForStorage, jsonRoundTrip, except_bind_ok, except_map_ok, except_map_error, except_pure_eq_ok, stripUndefined, stripFields,
      hstrip, propGet, fieldOf, JSFields.lookup, deleteField, JSFields.delKey,
      isArrayV, storageObj, hlook, hdel] <;> rfl

theorem backward_obj_undef_rels (n : Int) (props : List (String × JSValue))
    (hs : scalarPairs props = true) (hk : ∀ q ∈ props, q.1 ≠ "_rels") :
    transformValueFromStorage (storageObj n props .undefined) =
      .ok (.obj (.cons "_v" (.num n)
        (.cons "_d" (.obj (JSFields.ofList (props ++ [("_rels", JSValue.undefined)]))) .nil))) := by
  have hstrip := stripFields_ofList_scalars props hs
  have hset := setKey_ofList_notin props "_rels" JSValue.undefined hk
  simp [storageObj, transformValueFromStorage, jsonRoundTrip, except_bind_ok, except_map_ok, except_map_error, except_pure_eq_ok, stripUndefined, stripFields,
    hstrip, truthy, fieldOf, JSFields.lookup, deleteField, JSFields.delKey, isArrayV,
    propSet, JSFields.setKey, hset] <;> rfl

theorem forward_obj_on_result_undefined (n : Int) (props : List (String × JSValue))
    (hs : scalarPairs props = true) (hk : ∀ q ∈ props, q.1 ≠ "_rels") :
    transformValueForStorage (.obj (.cons "_v" (.num n)
        (.cons "_d" (.obj (JSFields.ofList (props ++ [("_rels", JSValue.undefined)]))) .nil))) =
      .ok (storageObj n props .undefined) := by
  have hstrip := stripFields_ofList_plus_undefined props "_rels" hs
  have hlook := lookup_ofList_notin props "_rels" hk
  have hdel := delKey_ofList_notin props "_rels" hk
  simp [transformValueForStorage, jsonRoundTrip, except_bind_ok, except_map_ok, except_map_error, except_pure_eq_ok, stripUndefined, stripFields, hstrip,
    propGet, fieldOf, JSFields.lookup, deleteField, JSFields.delKey, isArrayV,
    storageObj, hlook, hdel] <;> rfl

theorem pairwise_middle_keys (p₁ p₂ : List (String × JSValue)) (k : String) (x : JSValue)
    (h : (p₁ ++ (k, x) :: p₂).Pairwise keyNe) :
    (∀ q ∈ p₁, q.1 ≠ k) ∧ (∀ q ∈ p₂, q.1 ≠ k) := by
  rw [List.pairwise_append] at h
  obtain ⟨h₁, h₂, h₃⟩ := h
  refine ⟨fun q hq => h₃ q hq (k, x) (List.mem_cons_self _ _), fun q hq => ?_⟩
  exact Ne.symm ((List.pairwise_cons.mp h₂).1 q hq)

theorem deepEqual_result_list (dOrd : Bool) (n : Int) (xs : JSList) :
    deepEqual (mkExternal false n (.arr xs)) (mkExternal dOrd n (.arr xs)) = true := by
  apply deepEqual_of_norm_eq
  rw [norm_mkExternal, norm_mkExternal]

theorem deepEqual_result_objRels (dOrd : Bool) (n : Int)
    (p₁ p₂ : List (String × JSValue)) (R : JSValue)
    (hs : scalarPairs (p₁ ++ p₂) = true)
    (hpw : (p₁ ++ ("_rels", R) :: p₂).Pairwise keyNe) :
    deepEqual
      (mkExternal false n (.obj (JSFields.ofList ((p₁ ++ p₂) ++ [("_rels", R)]))))
      (mkExternal dOrd n (.obj (JSFields.ofList (p₁ ++ ("_rels", R) :: p₂)))) = true := by
  apply deepEqual_of_norm_eq
  rw [norm_mkExternal, norm_mkExternal]
  suffices h : normv (.obj (JSFields.ofList ((p₁ ++ p₂) ++ [("_rels", R)]))) =
      normv (.obj (JSFields.ofList (p₁ ++ ("_rels", R) :: p₂))) by rw [h]
  rw [norm_obj_ofList, norm_obj_ofList]
  suffices h : sortFields (((p₁ ++ p₂) ++ [("_rels", R)]).map fun p => (p.1, normv p.2)) =
      sortFields ((p₁ ++ ("_rels", R) :: p₂).map fun p => (p.1, normv p.2)) by rw [h]
  have hperm : ((p₁ ++ p₂) ++ [("_rels", R)]).Perm (p₁ ++ ("_rels", R) :: p₂) :=
    (List.perm_append_singleton _ _).trans List.perm_middle.symm
  apply sortFields_eq_of_perm
  · exact hperm.map _
  · rw [List.pairwise_map]
    have hpw' : ((p₁ ++ p₂) ++ [("_rels", R)]).Pairwise keyNe :=
      (hperm.pairwise_iff (fun h => Ne.symm h)).mpr hpw
    exact hpw'.imp fun h => h

/-- C1 (amended): the round trip `fromStorage ∘ forStorage` returns a value
deep-equal to the input for every well-formed External Value in list form
and in object form with a `_rels` entry (for object form without `_rels`
the round trip adds a `_d._rels` key holding `undefined` — see the
counterexample); and for every well-formed External Value the Storage
Value `s` produced by the forward transform satisfies
`forStorage (fromStorage s) = s` exactly. -/
theorem c1_round_trip_amended (v : JSValue) :
    ((WFListForm v ∨ WFObjRelsForm v) →
      ∃ m, roundTrip v = .ok m ∧ deepEqual m v = true) ∧
    ((WFListForm v ∨ WFObjRelsForm v ∨ WFObjNoRelsForm v) →
      ∃ s m, transformValueForStorage v = .ok s ∧
        transformValueFromStorage s = .ok m ∧ transformValueForStorage m = .ok s) := by
  constructor
  · rintro (⟨dOrd, n, xs, hsc, rfl⟩ | ⟨dOrd, n, p₁, p₂, R, hs, hR, hpw, rfl⟩)
    · have hnu := noUndefList_of_scalarList xs hsc
      refine ⟨.obj (.cons "_v" (.num n) (.cons "_d" (.arr xs) .nil)), ?_, ?_⟩
      · rw [roundTrip, forward_list dOrd n xs hnu, except_bind_ok]
        exact backward_list n xs hnu
      · exact deepEqual_result_list dOrd n xs
    · obtain ⟨hk1, hk2⟩ := pairwise_middle_keys p₁ p₂ "_rels" R hpw
      have hkprops : ∀ q ∈ p₁ ++ p₂, q.1 ≠ "_rels" := by
        intro q hq
        rcases List.mem_append.mp hq with h | h
        exacts [hk1 q h, hk2 q h]
      have hRne : R ≠ .undefined := by
        intro e; subst e; simp [noUndefined] at hR
      refine ⟨.obj (.cons "_v" (.num n)
        (.cons "_d" (.obj (JSFields.ofList ((p₁ ++ p₂) ++ [("_rels", R)]))) .nil)), ?_, ?_⟩
      · rw [roundTrip, forward_obj_rels dOrd n p₁ p₂ R hs hR hk1 hk2, except_bind_ok]
        exact backward_obj_rels n (p₁ ++ p₂) R hs hR hRne hkprops
      · exact deepEqual_result_objRels dOrd n p₁ p₂ R hs hpw
  · rintro (⟨dOrd, n, xs, hsc, rfl⟩ | ⟨dOrd, n, p₁, p₂, R, hs, hR, hpw, rfl⟩ |
      ⟨dOrd, n, p, hs, hpw, hk, rfl⟩)
    · have hnu := noUndefList_of_scalarList xs hsc
      exact ⟨_, _, forward_list dOrd n xs hnu, backward_list n xs hnu,
        forward_list false n xs hnu⟩
    · obtain ⟨hk1, hk2⟩ := pairwise_middle_keys p₁ p₂ "_rels" R hpw
      have hkprops : ∀ q ∈ p₁ ++ p₂, q.1 ≠ "_rels" := by
        intro q hq
        rcases List.mem_append.mp hq with h | h
        exacts [hk1 q h, hk2 q h]
      have hRne : R ≠ .undefined := by
        intro e; subst e; simp [noUndefined] at hR
      exact ⟨_, _, forward_obj_rels dOrd n p₁ p₂ R hs hR hk1 hk2,
        backward_obj_rels n (p₁ ++ p₂) R hs hR hRne hkprops,
        forward_obj_on_result n (p₁ ++ p₂) R hs hR hRne hkprops⟩
    · exact ⟨_, _, forward_obj_norels dOrd n p hs hk,
        backward_obj_undef_rels n p hs hk,
        forward_obj_on_result_undefined n p hs hk⟩

/-- Witness for C1 at the test suite's object value (with `_rels`). -/
theorem c1_witness :
    roundTrip testExternal = .ok c1m ∧ deepEqual c1m testExternal = true := by
  have hwf : WFObjRelsForm testExternal :=
    ⟨true, 12, [], [("firstname", .str "John"), ("lastname", .str "Smith")], relsObj,
      by decide, by decide, by decide, rfl⟩
  obtain ⟨m, hm, hd⟩ := (c1_round_trip_amended testExternal).1 (Or.inr hwf)
  have hc : roundTrip testExternal = .ok c1m := by decide
  rw [hc] at hm
  injection hm with he
  exact ⟨hc, he ▸ hd⟩

/-- C1 (counterexample): for the object-form External Value with no
`_rels` entry the round trip succeeds but returns a value that is not
deep-equal to the input — the payload has gained a `_rels` key holding
`undefined`. -/
theorem c1_counterexample :
    roundTrip noRelsValue = .ok noRelsRound ∧
    deepEqual noRelsRound noRelsValue = false := ⟨rfl, by decide⟩

/-! ### Frame lemmas for the heap embedding -/

theorem valConfined_mono {lo hi lo' hi' : Nat} (hlo : lo' ≤ lo) (hhi : hi ≤ hi')
    (v : HVal) (h : valConfined lo hi v) : valConfined lo' hi' v := by
  cases v <;> simp [valConfined] at h ⊢ <;> omega

theorem objConfined_mono {lo hi lo' hi' : Nat} (hlo : lo' ≤ lo) (hhi : hi ≤ hi')
    (o : HObj) (h : objConfined lo hi o) : objConfined lo' hi' o := by
  cases o with
  | fields fs => exact fun p hp => valConfined_mono hlo hhi _ (h p hp)
  | elems xs => exact fun v hv => valConfined_mono hlo hhi _ (h v hv)

theorem Frame.refl (h₀ : Store) : Frame h₀ h₀ := by
  refine ⟨le_refl _, fun i _ => rfl, fun a o ha hget => ?_⟩
  rw [List.get?_eq_none.mpr ha] at hget
  exact absurd hget (by simp)

theorem Frame.extend {h₀ h h' : Store} (f : Frame h₀ h)
    (hlen : h.length ≤ h'.length)
    (hag : ∀ i, i < h.length → h'.get? i = h.get? i)
    (hcl : ∀ a o, h.length ≤ a → h'.get? a = some o → objConfined h.length h'.length o) :
    Frame h₀ h' := by
  obtain ⟨f1, f2, f3⟩ := f
  refine ⟨le_trans f1 hlen, fun i hi => (hag i (lt_of_lt_of_le hi f1)).trans (f2 i hi),
    fun a o ha hget => ?_⟩
  by_cases hc : a < h.length
  · rw [hag a hc] at hget
    exact objConfined_mono (le_refl _) hlen o (f3 a o ha hget)
  · exact objConfined_mono f1 (le_refl _) o (hcl a o (by omega) hget)

mutual

theorem writeTree_spec : ∀ (t : JSValue) (h : Store),
    h.length ≤ (writeTree h t).1.length ∧
    (∀ i, i < h.length → (writeTree h t).1.get? i = h.get? i) ∧
    (∀ a o, h.length ≤ a → (writeTree h t).1.get? a = some o →
      objConfined h.length (writeTree h t).1.length o) ∧
    valConfined h.length (writeTree h t).1.length (writeTree h t).2
  | .undefined, h => by
    refine ⟨le_refl _, fun i _ => rfl, fun a o ha hget => ?_, trivial⟩
    have hg : h.get? a = some o := hget
    rw [List.get?_eq_none.mpr ha] at hg
    exact absurd hg (by simp)
  | .null, h => by
    refine ⟨le_refl _, fun i _ => rfl, fun a o ha hget => ?_, trivial⟩
    have hg : h.get? a = some o := hget
    rw [List.get?_eq_none.mpr ha] at hg
    exact absurd hg (by simp)
  | .bool b, h => by
    refine ⟨le_refl _, fun i _ => rfl, fun a o ha hget => ?_, trivial⟩
    have hg : h.get? a = some o := hget
    rw [List.get?_eq_none.mpr ha] at hg
    exact absurd hg (by simp)
  | .num n, h => by
    refine ⟨le_refl _, fun i _ => rfl, fun a o ha hget => ?_, trivial⟩
    have hg : h.get? a = some o := hget
    rw [List.get?_eq_none.mpr ha] at hg
    exact absurd hg (by simp)
  | .str s, h => by
    refine ⟨le_refl _, fun i _ => rfl, fun a o ha hget => ?_, trivial⟩
    have hg : h.get? a = some o := hget
    rw [List.get?_eq_none.mpr ha] at hg
    exact absurd hg (by simp)
  | .arr xs, h => by
    obtain ⟨l1, a1, c1, m1⟩ := writeElemsT_spec xs h
    simp only [writeTree]
    have hlen : ((writeElemsT h xs).1 ++ [HObj.elems (writeElemsT h xs).2]).length =
        (writeElemsT h xs).1.length + 1 := by simp
    refine ⟨?_, ?_, ?_, ?_⟩
    · omega
    · intro i hi
      rw [List.get?_append (by omega)]
      exact a1 i hi
    · intro a o ha hget
      by_cases hc : a < (writeElemsT h xs).1.length
      · rw [List.get?_append hc] at hget
        exact objConfined_mono (le_refl _) (by omega) o (c1 a o ha hget)
      · by_cases hc2 : a = (writeElemsT h xs).1.length
        · subst hc2
          rw [List.get?_concat_length] at hget
          cases hget
          exact fun v hv => valConfined_mono (le_refl _) (by omega) v (m1 v hv)
        · rw [List.get?_eq_none.mpr (by simp; omega)] at hget
          exact absurd hget (by simp)
    · simp only [valConfined]
      omega
  | .obj fs, h => by
    obtain ⟨l1, a1, c1, m1⟩ := writeFieldsT_spec fs h
    simp only [writeTree]
    have hlen : ((writeFieldsT h fs).1 ++ [HObj.fields (writeFieldsT h fs).2]).length =
        (writeFieldsT h fs).1.length + 1 := by simp
    refine ⟨?_, ?_, ?_, ?_⟩
    · omega
    · intro i hi
      rw [List.get?_append (by omega)]
      exact a1 i hi
    · intro a o ha hget
      by_cases hc : a < (writeFieldsT h fs).1.length
      · rw [List.get?_append hc] at hget
        exact objConfined_mono (le_refl _) (by omega) o (c1 a o ha hget)
      · by_cases hc2 : a = (writeFieldsT h fs).1.length
        · subst hc2
          rw [List.get?_concat_length] at hget
          cases hget
          exact fun p hp => valConfined_mono (le_refl _) (by omega) p.2 (m1 p hp)
        · rw [List.get?_eq_none.mpr (by simp; omega)] at hget
          exact absurd hget (by simp)
    · simp only [valConfined]
      omega

theorem writeFieldsT_spec : ∀ (fs : JSFields) (h : Store),
    h.length ≤ (writeFieldsT h fs).1.length ∧
    (∀ i, i < h.length → (writeFieldsT h fs).1.get? i = h.get? i) ∧
    (∀ a o, h.length ≤ a → (writeFieldsT h fs).1.get? a = some o →
      objConfined h.length (writeFieldsT h fs).1.length o) ∧
    (∀ p ∈ (writeFieldsT h fs).2, valConfined h.length (writeFieldsT h fs).1.length p.2)
  | .nil, h => by
    refine ⟨le_refl _, fun i _ => rfl, fun a o ha hget => ?_, by simp [writeFieldsT]⟩
    have hg : h.get? a = some o := hget
    rw [List.get?_eq_none.mpr ha] at hg
    exact absurd hg (by simp)
  | .cons k v t, h => by
    obtain ⟨l1, a1, c1, m1⟩ := writeTree_spec v h
    obtain ⟨l2, a2, c2, m2⟩ := writeFieldsT_spec t (writeTree h v).1
    simp only [writeFieldsT]
    refine ⟨le_trans l1 l2, ?_, ?_, ?_⟩
    · intro i hi
      rw [a2 i (by omega), a1 i hi]
    · intro a o ha hget
      by_cases hc : a < (writeTree h v).1.length
      · rw [a2 a hc] at hget
        exact objConfined_mono (le_refl _) l2 o (c1 a o ha hget)
      · exact objConfined_mono l1 (le_refl _) o (c2 a o (by omega) hget)
    · intro p hp
      rcases List.mem_cons.mp hp with he | hm
      · subst he
        exact valConfined_mono (le_refl _) l2 _ m1
      · exact valConfined_mono l1 (le_refl _) _ (m2 p hm)

theorem writeElemsT_spec : ∀ (xs : JSList) (h : Store),
    h.length ≤ (writeElemsT h xs).1.length ∧
    (∀ i, i < h.length → (writeElemsT h xs).1.get? i = h.get? i) ∧
    (∀ a o, h.length ≤ a → (writeElemsT h xs).1.get? a = some o →
      objConfined h.length (writeElemsT h xs).1.length o) ∧
    (∀ v ∈ (writeElemsT h xs).2, valConfined h.length (writeElemsT h xs).1.length v)
  | .nil, h => by
    refine ⟨le_refl _, fun i _ => rfl, fun a o ha hget => ?_, by simp [writeElemsT]⟩
    have hg : h.get? a = some o := hget
    rw [List.get?_eq_none.mpr ha] at hg
    exact absurd hg (by simp)
  | .cons v t, h => by
    obtain ⟨l1, a1, c1, m1⟩ := writeTree_spec v h
    obtain ⟨l2, a2, c2, m2⟩ := writeElemsT_spec t (writeTree h v).1
    simp only [writeElemsT]
    refine ⟨le_trans l1 l2, ?_, ?_, ?_⟩
    · intro i hi
      rw [a2 i (by omega), a1 i hi]
    · intro a o ha hget
      by_cases hc : a < (writeTree h v).1.length
      · rw [a2 a hc] at hget
        exact objConfined_mono (le_refl _) l2 o (c1 a o ha hget)
      · exact objConfined_mono l1 (le_refl _) o (c2 a o (by omega) hget)
    · intro w hw
      rcases List.mem_cons.mp hw with he | hm
      · subst he
        exact valConfined_mono (le_refl _) l2 _ m1
      · exact valConfined_mono l1 (le_refl _) _ (m2 w hm)

end

theorem hLookup_cases : ∀ (fs : List (String × HVal)) (k : String),
    hLookup fs k = .undefined ∨ ∃ p ∈ fs, p.2 = hLookup fs k
  | [], _ => Or.inl rfl
  | (k', v) :: t, k => by
    simp only [hLookup]
    by_cases hk : k' = k
    · exact Or.inr ⟨(k', v), by simp, by simp [hk]⟩
    · rcases hLookup_cases t k with h | ⟨p, hp, he⟩
      · simp [hk, h]
      · exact Or.inr ⟨p, by simp [hp], by simp [hk, he]⟩

theorem hDelKeyL_mem : ∀ (fs : List (String × HVal)) (k : String) (p : String × HVal),
    p ∈ hDelKeyL fs k → p ∈ fs
  | [], _, _ => by simp [hDelKeyL]
  | (k', v) :: t, k, p => by
    simp only [hDelKeyL]
    by_cases hk : k' = k
    · simp only [if_pos hk]
      exact fun h => List.mem_cons_of_mem _ (hDelKeyL_mem t k p h)
    · simp only [if_neg hk, List.mem_cons]
      rintro (he | hm)
      · exact Or.inl he
      · exact Or.inr (hDelKeyL_mem t k p hm)

theorem hSetKeyL_mem : ∀ (fs : List (String × HVal)) (k : String) (x : HVal)
    (p : String × HVal), p ∈ hSetKeyL fs k x → p ∈ fs ∨ p = (k, x)
  | [], _, _, _ => by simp [hSetKeyL]
  | (k', v) :: t, k, x, p => by
    simp only [hSetKeyL]
    by_cases hk : k' = k
    · simp only [if_pos hk, List.mem_cons]
      rintro (he | hm)
      · exact Or.inr he
      · exact Or.inl (Or.inr hm)
    · simp only [if_neg hk, List.mem_cons]
      rintro (he | hm)
      · exact Or.inl (Or.inl he)
      · rcases hSetKeyL_mem t k x p hm with h | h
        · exact Or.inl (Or.inr h)
        · exact Or.inr h

theorem frame_getField {h₀ h : Store} {v x : HVal} {k : String}
    (f : Frame h₀ h) (hv : valConfined h₀.length h.length v)
    (hget : heapGetField h v k = .ok x) : valConfined h₀.length h.length x := by
  cases v with
  | ref a =>
    simp only [heapGetField] at hget
    cases hga : h.get? a with
    | none => rw [hga] at hget; cases hget; trivial
    | some o =>
      rw [hga] at hget
      cases o with
      | elems xs => cases hget; trivial
      | fields fs =>
        cases hget
        have hconf := f.2.2 a (.fields fs) hv.1 hga
        rcases hLookup_cases fs k with he | ⟨p, hp, he⟩
        · rw [he]; trivial
        · rw [← he]; exact hconf p hp
  | undefined => simp [heapGetField] at hget
  | null => simp [heapGetField] at hget
  | bool b => cases hget; trivial
  | num n => cases hget; trivial
  | str s => cases hget; trivial

theorem frame_deleteField {h₀ h : Store} (v : HVal) (k : String)
    (f : Frame h₀ h) (hv : valConfined h₀.length h.length v) :
    Frame h₀ (heapDeleteField h v k) ∧ (heapDeleteField h v k).length = h.length := by
  cases v with
  | ref a =>
    simp only [heapDeleteField]
    cases hga : h.get? a with
    | none => exact ⟨f, rfl⟩
    | some o =>
      cases o with
      | elems xs => exact ⟨f, rfl⟩
      | fields fs =>
        have hlen : (h.set a (.fields (hDelKeyL fs k))).length = h.length :=
          List.length_set h a _
        refine ⟨⟨le_trans f.1 hlen.ge, ?_, ?_⟩, hlen⟩
        · intro i hi
          rw [List.get?_set_ne _ _ (by have := hv.1; omega : a ≠ i)]
          exact f.2.1 i hi
        · intro b o hb hget
          by_cases hab : a = b
          · subst hab
            rw [List.get?_set_eq_of_lt _ hv.2] at hget
            cases hget
            have hconf := f.2.2 a (.fields fs) hv.1 hga
            intro p hp
            exact valConfined_mono (le_refl _) hlen.ge p.2
              (hconf p (hDelKeyL_mem fs k p hp))
          · rw [List.get?_set_ne _ _ hab] at hget
            exact objConfined_mono (le_refl _) hlen.ge o (f.2.2 b o hb hget)
  | undefined => exact ⟨f, rfl⟩
  | null => exact ⟨f, rfl⟩
  | bool b => exact ⟨f, rfl⟩
  | num n => exact ⟨f, rfl⟩
  | str s => exact ⟨f, rfl⟩

theorem frame_setField {h₀ h h' : Store} {v x : HVal} {k : String}
    (f : Frame h₀ h) (hv : valConfined h₀.length h.length v)
    (hx : valConfined h₀.length h.length x)
    (hset : heapSetField h v k x = .ok h') :
    Frame h₀ h' ∧ h'.length = h.length := by
  cases v with
  | ref a =>
    simp only [heapSetField] at hset
    cases hga : h.get? a with
    | none => rw [hga] at hset; cases hset
    | some o =>
      rw [hga] at hset
      cases o with
      | elems xs => cases hset
      | fields fs =>
        cases hset
        have hlen : (h.set a (.fields (hSetKeyL fs k x))).length = h.length :=
          List.length_set h a _
        refine ⟨⟨le_trans f.1 hlen.ge, ?_, ?_⟩, hlen⟩
        · intro i hi
          rw [List.get?_set_ne _ _ (by have := hv.1; omega : a ≠ i)]
          exact f.2.1 i hi
        · intro b o hb hget
          by_cases hab : a = b
          · subst hab
            rw [List.get?_set_eq_of_lt _ hv.2] at hget
            cases hget
            have hconf := f.2.2 a (.fields fs) hv.1 hga
            intro p hp
            rcases hSetKeyL_mem fs k x p hp with hm | he
            · exact valConfined_mono (le_refl _) hlen.ge p.2 (hconf p hm)
            · subst he
              exact valConfined_mono (le_refl _) hlen.ge x hx
          · rw [List.get?_set_ne _ _ hab] at hget
            exact objConfined_mono (le_refl _) hlen.ge o (f.2.2 b o hb hget)
  | undefined => simp [heapSetField] at hset
  | null => simp [heapSetField] at hset
  | bool b => simp [heapSetField] at hset
  | num n => simp [heapSetField] at hset
  | str s => simp [heapSetField] at hset

theorem frame_alloc {h₀ h : Store} (fs : List (String × HVal))
    (f : Frame h₀ h) (hm : ∀ p ∈ fs, valConfined h₀.length h.length p.2) :
    Frame h₀ (allocFields h fs).1 ∧
    valConfined h₀.length (allocFields h fs).1.length (allocFields h fs).2 := by
  simp only [allocFields]
  have hlen : (h ++ [HObj.fields fs]).length = h.length + 1 := by simp
  constructor
  · refine ⟨by have := f.1; simp only [List.length_append, List.length_cons, List.length_nil]; omega, ?_, ?_⟩
    · intro i hi
      rw [List.get?_append (by have := f.1; omega)]
      exact f.2.1 i hi
    · intro a o ha hget
      by_cases hc : a < h.length
      · rw [List.get?_append hc] at hget
        exact objConfined_mono (le_refl _) (by omega) o (f.2.2 a o ha hget)
      · by_cases hc2 : a = h.length
        · subst hc2
          rw [List.get?_concat_length] at hget
          cases hget
          exact fun p hp => valConfined_mono (le_refl _) (by omega) p.2 (hm p hp)
        · rw [List.get?_eq_none.mpr (by simp; omega)] at hget
          exact absurd hget (by simp)
  · exact ⟨f.1, by simp⟩

theorem readTree_agree_all (h₀ h' : Store)
    (hag : ∀ i, i < h₀.length → h'.get? i = h₀.get? i) :
    ∀ fuel,
      (∀ v t, readTree fuel h₀ v = some t → readTree fuel h' v = some t) ∧
      (∀ fs t, readFieldsT fuel h₀ fs = some t → readFieldsT fuel h' fs = some t) ∧
      (∀ xs t, readElemsT fuel h₀ xs = some t → readElemsT fuel h' xs = some t) := by
  intro fuel
  induction fuel with
  | zero =>
    exact ⟨fun v t h => by simp [readTree] at h, fun fs t h => by simp [readFieldsT] at h,
      fun xs t h => by simp [readElemsT] at h⟩
  | succ f ih =>
    refine ⟨?_, ?_, ?_⟩
    · intro v t hr
      cases v with
      | undefined => exact hr
      | null => exact hr
      | bool b => exact hr
      | num n => exact hr
      | str s => exact hr
      | ref a =>
        simp only [readTree] at hr ⊢
        cases hga : h₀.get? a with
        | none => rw [hga] at hr; exact absurd hr (by simp)
        | some o =>
          have ha : a < h₀.length := by
            by_contra hc
            rw [List.get?_eq_none.mpr (by omega)] at hga
            exact absurd hga (by simp)
          rw [hga] at hr
          rw [hag a ha, hga]
          cases o with
          | fields fs =>
            rcases Option.map_eq_some'.mp hr with ⟨jt, hjt, he⟩
            show (readFieldsT f h' fs).map JSValue.obj = some t
            rw [ih.2.1 fs jt hjt]
            simpa using he
          | elems xs =>
            rcases Option.map_eq_some'.mp hr with ⟨jt, hjt, he⟩
            show (readElemsT f h' xs).map JSValue.arr = some t
            rw [ih.2.2 xs jt hjt]
            simpa using he
    · intro fs t hr
      cases fs with
      | nil => exact hr
      | cons p tl =>
        obtain ⟨k, v⟩ := p
        simp only [readFieldsT] at hr ⊢
        cases hv : readTree f h₀ v with
        | none => rw [hv] at hr; simp at hr
        | some jv =>
          cases htl : readFieldsT f h₀ tl with
          | none => rw [hv, htl] at hr; simp at hr
          | some jt =>
            rw [hv, htl] at hr
            rw [ih.1 v jv hv, ih.2.1 tl jt htl]
            exact hr
    · intro xs t hr
      cases xs with
      | nil => exact hr
      | cons v tl =>
        simp only [readElemsT] at hr ⊢
        cases hv : readTree f h₀ v with
        | none => rw [hv] at hr; simp at hr
        | some jv =>
          cases htl : readElemsT f h₀ tl with
          | none => rw [hv, htl] at hr; simp at hr
          | some jt =>
            rw [hv, htl] at hr
            rw [ih.1 v jv hv, ih.2.2 tl jt htl]
            exact hr

theorem readFieldsT_mem_read : ∀ (fuel : Nat) (h : Store) (fs : List (String × HVal))
    (jt : JSFields), readFieldsT fuel h fs = some jt →
    ∀ k w, (k, w) ∈ fs → ∃ fl tl, readTree fl h w = some tl
  | 0, h, fs, jt => by simp [readFieldsT]
  | fuel + 1, h, [], jt => by simp
  | fuel + 1, h, (k', v) :: tl, jt => by
    intro hr k w hm
    simp only [readFieldsT] at hr
    cases hv : readTree fuel h v with
    | none => rw [hv] at hr; simp at hr
    | some jv =>
      cases htl : readFieldsT fuel h tl with
      | none => rw [hv, htl] at hr; simp at hr
      | some jt2 =>
        rcases List.mem_cons.mp hm with he | hm2
        · injection he with he1 he2
          subst he1; subst he2
          exact ⟨fuel, jv, hv⟩
        · exact readFieldsT_mem_read fuel h tl jt2 htl k w hm2

theorem readElemsT_mem_read : ∀ (fuel : Nat) (h : Store) (xs : List HVal)
    (jt : JSList), readElemsT fuel h xs = some jt →
    ∀ w, w ∈ xs → ∃ fl tl, readTree fl h w = some tl
  | 0, h, xs, jt => by simp [readElemsT]
  | fuel + 1, h, [], jt => by simp
  | fuel + 1, h, v :: tl, jt => by
    intro hr w hm
    simp only [readElemsT] at hr
    cases hv : readTree fuel h v with
    | none => rw [hv] at hr; simp at hr
    | some jv =>
      cases htl : readElemsT fuel h tl with
      | none => rw [hv, htl] at hr; simp at hr
      | some jt2 =>
        rcases List.mem_cons.mp hm with he | hm2
        · subst he
          exact ⟨fuel, jv, hv⟩
        · exact readElemsT_mem_read fuel h tl jt2 htl w hm2

theorem reach_bound (h₀ h' : Store)
    (hag : ∀ i, i < h₀.length → h'.get? i = h₀.get? i) :
    ∀ v b, Reaches h' v b → (∃ fuel t, readTree fuel h₀ v = some t) →
      b < h₀.length := by
  intro v b hr
  induction hr with
  | here a =>
    rintro ⟨fuel, t, ht⟩
    cases fuel with
    | zero => simp [readTree] at ht
    | succ f =>
      simp only [readTree] at ht
      cases hga : h₀.get? a with
      | none => rw [hga] at ht; simp at ht
      | some o =>
        by_contra hc
        rw [List.get?_eq_none.mpr (by omega)] at hga
        exact absurd hga (by simp)
  | viaField a b fs k w hga hmem hrw ih =>
    rintro ⟨fuel, t, ht⟩
    cases fuel with
    | zero => simp [readTree] at ht
    | succ f =>
      simp only [readTree] at ht
      have hsome : ∃ o, h₀.get? a = some o := by
        cases hga0 : h₀.get? a with
        | none => rw [hga0] at ht; simp at ht
        | some o => exact ⟨o, rfl⟩
      obtain ⟨o, hga0⟩ := hsome
      have ha : a < h₀.length := by
        by_contra hc
        rw [List.get?_eq_none.mpr (by omega)] at hga0
        exact absurd hga0 (by simp)
      have h0f : h₀.get? a = some (.fields fs) := (hag a ha).symm.trans hga
      rw [h0f] at ht
      rcases Option.map_eq_some'.mp ht with ⟨jt, hjt, _⟩
      obtain ⟨fl, tl, hw⟩ := readFieldsT_mem_read f h₀ fs jt hjt k w hmem
      exact ih ⟨fl, tl, hw⟩
  | viaElem a b xs w hga hmem hrw ih =>
    rintro ⟨fuel, t, ht⟩
    cases fuel with
    | zero => simp [readTree] at ht
    | succ f =>
      simp only [readTree] at ht
      have hsome : ∃ o, h₀.get? a = some o := by
        cases hga0 : h₀.get? a with
        | none => rw [hga0] at ht; simp at ht
        | some o => exact ⟨o, rfl⟩
      obtain ⟨o, hga0⟩ := hsome
      have ha : a < h₀.length := by
        by_contra hc
        rw [List.get?_eq_none.mpr (by omega)] at hga0
        exact absurd hga0 (by simp)
      have h0f : h₀.get? a = some (.elems xs) := (hag a ha).symm.trans hga
      rw [h0f] at ht
      rcases Option.map_eq_some'.mp ht with ⟨jt, hjt, _⟩
      obtain ⟨fl, tl, hw⟩ := readElemsT_mem_read f h₀ xs jt hjt w hmem
      exact ih ⟨fl, tl, hw⟩

theorem reach_ge_of_confined (h' : Store) (n : Nat)
    (hcl : ∀ a o, n ≤ a → h'.get? a = some o → objConfined n h'.length o) :
    ∀ v b, Reaches h' v b → valConfined n h'.length v → n ≤ b := by
  intro v b hr
  induction hr with
  | here a => exact fun hc => hc.1
  | viaField a b fs k w hga hmem hrw ih =>
    intro hc
    exact ih (hcl a _ hc.1 hga (k, w) hmem)
  | viaElem a b xs w hga hmem hrw ih =>
    intro hc
    exact ih (hcl a _ hc.1 hga w hmem)

theorem forStorageBody_frame (h₀ : Store) (t : JSValue) (h' : Store) (res : HVal)
    (hok : forStorageBody h₀ t = .ok (h', res)) :
    Frame h₀ h' ∧ valConfined h₀.length h'.length res := by
  obtain ⟨l1, a1, c1, m1⟩ := writeTree_spec (stripUndefined t) h₀
  have fr1 : Frame h₀ (writeTree h₀ (stripUndefined t)).1 := ⟨l1, a1, c1⟩
  simp only [forStorageBody] at hok
  cases hget : heapGetField (writeTree h₀ (stripUndefined t)).1 (writeTree h₀ (stripUndefined t)).2
      "_d" with
  | error e =>
    rw [hget, except_bind_error] at hok
    exact absurd hok (by simp)
  | ok data =>
    rw [hget, except_bind_ok] at hok
    have hdataC := frame_getField fr1 m1 hget
    obtain ⟨fr2, hlen2⟩ :=
      frame_deleteField (writeTree h₀ (stripUndefined t)).2 "_d" fr1 m1
    have hdataC2 : valConfined h₀.length
        (heapDeleteField (writeTree h₀ (stripUndefined t)).1
          (writeTree h₀ (stripUndefined t)).2 "_d").length data := by
      rw [hlen2]; exact hdataC
    have hv1C : valConfined h₀.length
        (heapDeleteField (writeTree h₀ (stripUndefined t)).1
          (writeTree h₀ (stripUndefined t)).2 "_d").length
        (writeTree h₀ (stripUndefined t)).2 := by
      rw [hlen2]; exact m1
    by_cases hif : heapIsArray (heapDeleteField (writeTree h₀ (stripUndefined t)).1
        (writeTree h₀ (stripUndefined t)).2 "_d") data = true
    · rw [if_pos hif, except_pure_eq_ok] at hok
      injection hok with hok2
      rw [Prod.ext_iff] at hok2
      obtain ⟨he1, he2⟩ := hok2
      subst he1
      subst he2
      obtain ⟨fra, hca⟩ := frame_alloc [("__dsList", data),
          ("__ds", (writeTree h₀ (stripUndefined t)).2)] fr2 (fun p hp => by
        rcases List.mem_cons.mp hp with he | hp2
        · subst he; exact hdataC2
        · rcases List.mem_cons.mp hp2 with he | hp3
          · subst he; exact hv1C
          · simp at hp3)
      exact ⟨fra, hca⟩
    · rw [if_neg hif] at hok
      cases hrels : heapGetField (heapDeleteField (writeTree h₀ (stripUndefined t)).1
          (writeTree h₀ (stripUndefined t)).2 "_d") data "_rels" with
      | error e =>
        rw [hrels, except_bind_error] at hok
        exact absurd hok (by simp)
      | ok rels =>
        rw [hrels, except_bind_ok, except_pure_eq_ok] at hok
        injection hok with hok2
        rw [Prod.ext_iff] at hok2
        obtain ⟨he1, he2⟩ := hok2
        subst he1
        subst he2
        have hrelsC := frame_getField fr2 hdataC2 hrels
        obtain ⟨fr3, hlen3⟩ := frame_deleteField data "_rels" fr2 hdataC2
        obtain ⟨fra, hca⟩ := frame_alloc [("_props", data), ("_rels", rels),
            ("__ds", (writeTree h₀ (stripUndefined t)).2)] fr3 (fun p hp => by
          rcases List.mem_cons.mp hp with he | hp2
          · subst he; rw [hlen3]; exact hdataC2
          · rcases List.mem_cons.mp hp2 with he | hp3
            · subst he; rw [hlen3]; exact hrelsC
            · rcases List.mem_cons.mp hp3 with he | hp4
              · subst he; rw [hlen3]; exact hv1C
              · simp at hp4)
        exact ⟨fra, hca⟩

theorem fromStorageBody_frame (h₀ : Store) (t : JSValue) (h' : Store) (res : HVal)
    (hok : fromStorageBody h₀ t = .ok (h', res)) :
    Frame h₀ h' ∧ valConfined h₀.length h'.length res := by
  obtain ⟨l1, a1, c1, m1⟩ := writeTree_spec (stripUndefined t) h₀
  have fr1 : Frame h₀ (writeTree h₀ (stripUndefined t)).1 := ⟨l1, a1, c1⟩
  simp only [fromStorageBody] at hok
  by_cases htr : heapTruthy (writeTree h₀ (stripUndefined t)).2 = false
  · rw [if_pos htr] at hok
    injection hok with hok2
    rw [Prod.ext_iff] at hok2
    obtain ⟨he1, he2⟩ := hok2
    subst he1
    subst he2
    exact ⟨fr1, trivial⟩
  · rw [if_neg htr] at hok
    cases hds : heapGetField (writeTree h₀ (stripUndefined t)).1
        (writeTree h₀ (stripUndefined t)).2 "__ds" with
    | error e =>
      rw [hds, except_bind_error] at hok
      exact absurd hok (by simp)
    | ok data =>
      rw [hds, except_bind_ok] at hok
      have hdataC := frame_getField fr1 m1 hds
      obtain ⟨fr2, hlen2⟩ :=
        frame_deleteField (writeTree h₀ (stripUndefined t)).2 "__ds" fr1 m1
      have hdataC2 : valConfined h₀.length
          (heapDeleteField (writeTree h₀ (stripUndefined t)).1
            (writeTree h₀ (stripUndefined t)).2 "__ds").length data := by
        rw [hlen2]; exact hdataC
      have hv1C2 : valConfined h₀.length
          (heapDeleteField (writeTree h₀ (stripUndefined t)).1
            (writeTree h₀ (stripUndefined t)).2 "__ds").length
          (writeTree h₀ (stripUndefined t)).2 := by
        rw [hlen2]; exact m1
      cases hdsl : heapGetField (heapDeleteField (writeTree h₀ (stripUndefined t)).1
          (writeTree h₀ (stripUndefined t)).2 "__ds")
          (writeTree h₀ (stripUndefined t)).2 "__dsList" with
      | error e =>
        rw [hdsl, except_bind_error] at hok
        exact absurd hok (by simp)
      | ok dsList =>
        rw [hdsl, except_bind_ok] at hok
        have hdslC := frame_getField fr2 hv1C2 hdsl
        by_cases hia : heapIsArray (heapDeleteField (writeTree h₀ (stripUndefined t)).1
            (writeTree h₀ (stripUndefined t)).2 "__ds") dsList = true
        · rw [if_pos hia] at hok
          cases hset : heapSetField (heapDeleteField (writeTree h₀ (stripUndefined t)).1
              (writeTree h₀ (stripUndefined t)).2 "__ds") data "_d" dsList with
          | error e =>
            rw [hset, except_bind_error] at hok
            exact absurd hok (by simp)
          | ok h3 =>
            rw [hset, except_bind_ok, except_pure_eq_ok] at hok
            injection hok with hok2
            rw [Prod.ext_iff] at hok2
            obtain ⟨he1, he2⟩ := hok2
            subst he1
            subst he2
            obtain ⟨fr3, hlen3⟩ := frame_setField fr2 hdataC2 hdslC hset
            exact ⟨fr3, by rw [hlen3]; exact hdataC2⟩
        · rw [if_neg hia] at hok
          cases hpr : heapGetField (heapDeleteField (writeTree h₀ (stripUndefined t)).1
              (writeTree h₀ (stripUndefined t)).2 "__ds")
              (writeTree h₀ (stripUndefined t)).2 "_props" with
          | error e =>
            rw [hpr, except_bind_error] at hok
            exact absurd hok (by simp)
          | ok props =>
            rw [hpr, except_bind_ok] at hok
            have hprC := frame_getField fr2 hv1C2 hpr
            cases hset : heapSetField (heapDeleteField (writeTree h₀ (stripUndefined t)).1
                (writeTree h₀ (stripUndefined t)).2 "__ds") data "_d" props with
            | error e =>
              rw [hset, except_bind_error] at hok
              exact absurd hok (by simp)
            | ok h3 =>
              rw [hset, except_bind_ok] at hok
              obtain ⟨fr3, hlen3⟩ := frame_setField fr2 hdataC2 hprC hset
              have hdataC3 : valConfined h₀.length h3.length data := by
                rw [hlen3]; exact hdataC2
              have hv1C3 : valConfined h₀.length h3.length
                  (writeTree h₀ (stripUndefined t)).2 := by
                rw [hlen3]; exact hv1C2
              cases hpr2 : heapGetField h3 (writeTree h₀ (stripUndefined t)).2 "_props" with
              | error e =>
                rw [hpr2, except_bind_error] at hok
                exact absurd hok (by simp)
              | ok props2 =>
                rw [hpr2, except_bind_ok] at hok
                by_cases htr2 : heapTruthy props2 = true
                · rw [if_pos htr2] at hok
                  cases hrl : heapGetField h3 (writeTree h₀ (stripUndefined t)).2 "_rels" with
                  | error e =>
                    rw [hrl, except_bind_error] at hok
                    exact absurd hok (by simp)
                  | ok rels =>
                    rw [hrl, except_bind_ok] at hok
                    have hrlC := frame_getField fr3 hv1C3 hrl
                    cases hda : heapGetField h3 data "_d" with
                    | error e =>
                      rw [hda, except_bind_error] at hok
                      exact absurd hok (by simp)
                    | ok dAlias =>
                      rw [hda, except_bind_ok] at hok
                      have hdaC := frame_getField fr3 hdataC3 hda
                      cases hset4 : heapSetField h3 dAlias "_rels" rels with
                      | error e =>
                        rw [hset4, except_bind_error] at hok
                        exact absurd hok (by simp)
                      | ok h4 =>
                        rw [hset4, except_bind_ok, except_pure_eq_ok] at hok
                        injection hok with hok2
                        rw [Prod.ext_iff] at hok2
                        obtain ⟨he1, he2⟩ := hok2
                        subst he1
                        subst he2
                        obtain ⟨fr4, hlen4⟩ := frame_setField fr3 hdaC hrlC hset4
                        have hdataC4 : valConfined h₀.length h4.length data := by
                          rw [hlen4]; exact hdataC3
                        have hv1C4 : valConfined h₀.length h4.length
                            (writeTree h₀ (stripUndefined t)).2 := by
                          rw [hlen4]; exact hv1C3
                        obtain ⟨fr5, hlen5⟩ :=
                          frame_deleteField (writeTree h₀ (stripUndefined t)).2 "_rels" fr4 hv1C4
                        exact ⟨fr5, by rw [hlen5]; exact hdataC4⟩
                · rw [if_neg htr2, except_pure_eq_ok] at hok
                  injection hok with hok2
                  rw [Prod.ext_iff] at hok2
                  obtain ⟨he1, he2⟩ := hok2
                  subst he1
                  subst he2
                  obtain ⟨fr5, hlen5⟩ :=
                    frame_deleteField (writeTree h₀ (stripUndefined t)).2 "_rels" fr3 hv1C3
                  exact ⟨fr5, by rw [hlen5]; exact hdataC3⟩

theorem c8_conclusion (fuel : Nat) (h₀ : Store) (arg : HVal) (t₀ : JSValue)
    (hread : readTree fuel h₀ arg = some t₀) (h' : Store) (res : HVal)
    (hfr : Frame h₀ h') (hres : valConfined h₀.length h'.length res) :
    readTree fuel h' arg = some t₀ ∧
    ∀ b, Reaches h' res b → Reaches h' arg b → False := by
  constructor
  · exact (readTree_agree_all h₀ h' hfr.2.1 fuel).1 arg t₀ hread
  · intro b hres2 harg
    have hb1 : h₀.length ≤ b :=
      reach_ge_of_confined h' h₀.length hfr.2.2 res b hres2 hres
    have hb2 : b < h₀.length :=
      reach_bound h₀ h' hfr.2.1 arg b harg ⟨fuel, t₀, hread⟩
    omega

/-- C8: neither transform mutates its argument, and the returned
structure shares no heap object with it.  In the heap embedding: if the
argument denotes the tree `t` (the deep read succeeds), then after either
transform returns, the argument still denotes exactly `t`, and no store
address is reachable both from the result and from the argument. -/
theorem c8_transforms_no_mutation_no_sharing (fuel : Nat) (h₀ : Store) (arg : HVal)
    (t : JSValue) (hread : readTree fuel h₀ arg = some t) :
    (∀ h' res, transformValueForStorageH fuel h₀ arg = .ok (h', res) →
      readTree fuel h' arg = some t ∧
      ∀ b, Reaches h' res b → Reaches h' arg b → False) ∧
    (∀ h' res, transformValueFromStorageH fuel h₀ arg = .ok (h', res) →
      readTree fuel h' arg = some t ∧
      ∀ b, Reaches h' res b → Reaches h' arg b → False) := by
  constructor
  · intro h' res hok
    unfold transformValueForStorageH at hok
    rw [hread] at hok
    have hbody : forStorageBody h₀ t = .ok (h', res) := by
      cases t <;> first | exact hok | exact absurd hok (by simp)
    obtain ⟨hfr, hres⟩ := forStorageBody_frame h₀ t h' res hbody
    exact c8_conclusion fuel h₀ arg t hread h' res hfr hres
  · intro h' res hok
    unfold transformValueFromStorageH at hok
    rw [hread] at hok
    have hbody : fromStorageBody h₀ t = .ok (h', res) := by
      cases t <;> first | exact hok | exact absurd hok (by simp)
    obtain ⟨hfr, hres⟩ := fromStorageBody_frame h₀ t h' res hbody
    exact c8_conclusion fuel h₀ arg t hread h' res hfr hres

/-- Witness for C8: on the materialised test values, both transforms run
to completion and the argument reads back unchanged afterwards. -/
theorem c8_witness :
    readTree 20 c8forOut.1 c8forPair.2 = some testExternal ∧
    readTree 20 c8fromOut.1 c8fromPair.2 = some testStorage :=
  ⟨((c8_transforms_no_mutation_no_sharing 20 c8forPair.1 c8forPair.2 testExternal
      (by decide)).1 c8forOut.1 c8forOut.2 (by decide)).1,
   ((c8_transforms_no_mutation_no_sharing 20 c8fromPair.1 c8fromPair.2 testStorage
      (by decide)).2 c8fromOut.1 c8fromOut.2 (by decide)).1⟩
